import Mathlib

/-!
# Verification of `asgi-caches` (HTTP response caching layer)

A shallow embedding of the core of the `asgi_caches` package:

* `utils/misc.py` — base64 body codec (`bytes_to_json_string` / `json_string_to_bytes`),
* `utils/cache.py` — cache-key derivation, response (de)serialization,
  request/response cacheability rules (`get_from_cache`, `store_in_cache`,
  `learn_cache_key`, `get_cache_key`, `patch_cache_control`),
* `middleware.py` — the `CacheResponder` response-interception state machine.

Python strings are modelled as `List Char`, byte strings as `List Nat`
(with a `< 256` well-formedness hypothesis where it matters), and the
external key-value store as an association list `Store`.  Store traffic is
made observable through an explicit operation trace (`CacheOp`), and Python
exceptions through `Except Exn`.  External inputs that the code treats as
opaque (the md5 hex digest, the store's `make_key` namespacing hook, the
wall clock and HTTP date formatting) are parameters of the context `Ctx`;
none of the verified properties depend on their values.
-/

namespace AsgiCaches

/-! ## Python string primitives used by the source -/

/-- The ASCII whitespace characters removed by Python's `str.strip()`. -/
def pyIsSpace (c : Char) : Bool :=
  c = ' ' || c = '\t' || c = '\n' || c = '\r' || c = '\x0b' || c = '\x0c'

/-- Python `str.strip()`: drop whitespace from both ends. -/
def pyStrip (s : List Char) : List Char :=
  ((s.dropWhile pyIsSpace).reverse.dropWhile pyIsSpace).reverse

/-- Python `str.split("=")`: split on every occurrence of `'='`.
`''.split('=') == ['']`, so the empty string maps to `[[]]`. -/
def splitEq : List Char → List (List Char)
  | [] => [[]]
  | c :: rest =>
    if c = '=' then [] :: splitEq rest
    else
      match splitEq rest with
      | [] => [[c]]
      | s :: ss => (c :: s) :: ss

/-- Decimal digit character for `n < 10`. -/
def digitChar (n : Nat) : Char := Char.ofNat (48 + n)

/-- Fuel-driven digit rendering; the fuel only needs to exceed the
number of digits. -/
def natCharsGo : Nat → Nat → List Char
  | 0, _ => []
  | fuel + 1, n =>
    if n < 10 then [digitChar n]
    else natCharsGo fuel (n / 10) ++ [digitChar (n % 10)]

/-- Decimal rendering of a natural number, as Python `str(n)` produces it. -/
def natChars (n : Nat) : List Char := natCharsGo (n + 1) n

/-- Decimal rendering of an integer, as Python `str(i)` produces it. -/
def intChars (i : Int) : List Char :=
  if i < 0 then '-' :: natChars i.natAbs else natChars i.natAbs

/-- Value of a decimal digit character, if it is one. -/
def digitVal (c : Char) : Option Nat :=
  if 48 ≤ c.toNat ∧ c.toNat ≤ 57 then some (c.toNat - 48) else none

/-- Parse an unsigned run of decimal digits, allowing the single
underscores Python's `int()` accepts between digits. -/
def digitsVal : List Char → Option Nat → Option Nat
  | [], acc => acc
  | c :: rest, acc =>
    if c = '_' then
      match rest, acc with
      | c2 :: rest2, some a =>
        match digitVal c2 with
        | some d => digitsVal rest2 (some (a * 10 + d))
        | none => none
      | _, _ => none
    else
      match digitVal c, acc with
      | some d, some a => digitsVal rest (some (a * 10 + d))
      | some d, none => digitsVal rest (some d)
      | none, _ => none

/-- Model of Python `int(s)` on strings: optional surrounding whitespace,
optional sign, then decimal digits (underscores allowed between digits). -/
def pyInt (s : List Char) : Option Int :=
  let r := pyStrip s
  if r.head? = some '-' then (digitsVal r.tail none).map (fun n => -(n : Int))
  else if r.head? = some '+' then (digitsVal r.tail none).map (fun n => (n : Int))
  else (digitsVal r none).map (fun n => (n : Int))

/-! ## `urllib.request.parse_http_list`

The exact CPython algorithm: a character scan that splits on commas that
occur outside double-quoted sections, removing backslash escapes inside
quotes, and finally strips each part. -/

/-- Scanner state of `parse_http_list`: emitted parts, current part,
whether we are inside a quoted section, whether the previous character was
an unconsumed backslash escape. -/
structure PState where
  res : List (List Char)
  part : List Char
  quote : Bool
  escape : Bool
  deriving DecidableEq, Repr

/-- One character step of the `parse_http_list` scanner. -/
def phlStep (st : PState) (c : Char) : PState :=
  if st.escape then
    { st with part := st.part ++ [c], escape := false }
  else if st.quote then
    if c = '\\' then { st with escape := true }
    else if c = '"' then { st with part := st.part ++ [c], quote := false }
    else { st with part := st.part ++ [c] }
  else if c = ',' then
    { st with res := st.res ++ [st.part], part := [] }
  else if c = '"' then
    { st with part := st.part ++ [c], quote := true }
  else
    { st with part := st.part ++ [c] }

/-- Initial scanner state. -/
def phlInit : PState := ⟨[], [], false, false⟩

/-- Run the scanner over a character list. -/
def phlFold (st : PState) (s : List Char) : PState := s.foldl phlStep st

/-- `parse_http_list` on character lists: scan, append the last part if
non-empty, and strip every part. -/
def parseHttpListCore (s : List Char) : List (List Char) :=
  let st := phlFold phlInit s
  let res := if st.part.isEmpty then st.res else st.res ++ [st.part]
  res.map pyStrip

/-- `urllib.request.parse_http_list` on Lean strings. -/
def parse_http_list (s : String) : List String :=
  (parseHttpListCore s.data).map List.asString

/-! ## The base64 body codec (`utils/misc.py`)

`bytes_to_json_string` is `base64.encodebytes(data).decode("ascii")` and
`json_string_to_bytes` is `base64.decodebytes(value.encode("ascii"))`.
`encodebytes` encodes 57-byte slices of the input, each followed by a
newline; `decodebytes` (binascii `a2b_base64` in non-strict mode) skips
every character outside the base64 alphabet and decodes the remaining
sextets in groups of four, discarding the bits of a trailing lone sextet. -/

/-- The standard base64 alphabet, by sextet value (0–63). -/
def b64EncodeChar (s : Nat) : Char :=
  if s < 26 then Char.ofNat (65 + s)
  else if s < 52 then Char.ofNat (97 + (s - 26))
  else if s < 62 then Char.ofNat (48 + (s - 52))
  else if s = 62 then '+'
  else '/'

/-- Inverse of the base64 alphabet; `none` for every character outside it
(including `'='` and `'\n'`, which the decoder skips). -/
def b64DecodeChar (c : Char) : Option Nat :=
  if 65 ≤ c.toNat ∧ c.toNat ≤ 90 then some (c.toNat - 65)
  else if 97 ≤ c.toNat ∧ c.toNat ≤ 122 then some (c.toNat - 97 + 26)
  else if 48 ≤ c.toNat ∧ c.toNat ≤ 57 then some (c.toNat - 48 + 52)
  else if c = '+' then some 62
  else if c = '/' then some 63
  else none

/-- The sextet stream encoding a byte list (without padding characters). -/
def b64Sextets : List Nat → List Nat
  | a :: b :: c :: rest =>
    (a / 4) :: ((a % 4) * 16 + b / 16) :: ((b % 16) * 4 + c / 64) ::
      (c % 64) :: b64Sextets rest
  | [a, b] => [a / 4, (a % 4) * 16 + b / 16, (b % 16) * 4]
  | [a] => [a / 4, (a % 4) * 16]
  | [] => []

/-- base64-encode one binary slice: alphabet characters for the sextets,
then `'='` padding up to a multiple of four characters. -/
def b64EncodeCore (bs : List Nat) : List Char :=
  (b64Sextets bs).map b64EncodeChar ++
    (match bs.length % 3 with
     | 1 => ['=', '=']
     | 2 => ['=']
     | _ => [])

/-- Fuel-driven slicing; any fuel at least the length of the list works. -/
def chunks57Go : Nat → List Nat → List (List Nat)
  | _, [] => []
  | 0, _ :: _ => []
  | fuel + 1, bs => bs.take 57 :: chunks57Go fuel (bs.drop 57)

/-- Split a byte list into the 57-byte slices `encodebytes` works on. -/
def chunks57 (bs : List Nat) : List (List Nat) := chunks57Go bs.length bs

/-- `base64.encodebytes`: each 57-byte slice encoded and newline-terminated. -/
def encodebytes (bs : List Nat) : List Char :=
  (chunks57 bs).flatMap (fun c => b64EncodeCore c ++ ['\n'])

/-- Decode a sextet stream back to bytes, four sextets at a time; a
trailing group of three or two sextets yields two or one byte, and the
bits of a lone trailing sextet are discarded. -/
def b64DecodeQuads : List Nat → List Nat
  | a :: b :: c :: d :: rest =>
    (a * 4 + b / 16) :: ((b % 16) * 16 + c / 4) :: ((c % 4) * 64 + d) ::
      b64DecodeQuads rest
  | [a, b, c] => [a * 4 + b / 16, (b % 16) * 16 + c / 4]
  | [a, b] => [a * 4 + b / 16]
  | _ => []

/-- `base64.decodebytes`: skip non-alphabet characters, decode the rest. -/
def decodebytes (cs : List Char) : List Nat :=
  b64DecodeQuads (cs.filterMap b64DecodeChar)

/-- `bytes_to_json_string` from `utils/misc.py`. -/
def bytes_to_json_string (data : List Nat) : List Char := encodebytes data

/-- `json_string_to_bytes` from `utils/misc.py`. -/
def json_string_to_bytes (value : List Char) : List Nat := decodebytes value

/-- Python `str.lower()` on the ASCII header data the code handles. -/
def strLower (s : String) : String := (s.data.map Char.toLower).asString

/-- Code-point lexicographic comparison of character lists, as Python
compares strings. -/
def charListLe : List Char → List Char → Bool
  | [], _ => true
  | _ :: _, [] => false
  | a :: as, b :: bs =>
    if a.toNat < b.toNat then true
    else if b.toNat < a.toNat then false
    else charListLe as bs

/-- Python `<=` on strings. -/
def strLe (a b : String) : Bool := charListLe a.data b.data

/-! ## Exceptions (`exceptions.py` plus the builtin ones the code can raise) -/

/-- The exceptions observable in the embedded code: the two recoverable
cacheability signals, plus Python's `ValueError` (from `int()`),
`NotImplementedError` (the `public`/`private` directives) and
`AssertionError`. -/
inductive Exn
  | requestNotCachable
  | responseNotCachable
  | valueError
  | notImplementedError
  | assertionError
  deriving DecidableEq, Repr

/-! ## Header lists (starlette `Headers` / `MutableHeaders` on raw pairs)

ASGI requires raw header names to be lowercase; starlette lowercases the
query key and compares it to the stored raw name.  `headersSet` mirrors
`MutableHeaders.__setitem__`: the first matching entry is replaced in
place (with the lowercased name), further matches are dropped, and a
missing key is appended.  `headersDel` removes every match. -/

/-- `Headers.get`: first entry whose raw name equals the lowercased key. -/
def headersGet (hs : List (String × String)) (k : String) : Option String :=
  (hs.find? (fun p => p.1 == strLower k)).map (·.2)

/-- `key in headers`. -/
def headersHas (hs : List (String × String)) (k : String) : Bool :=
  (headersGet hs k).isSome

/-- Helper for `headersSet`: replace the first match in place and drop
later matches, else append. -/
def headersSetGo (key v : String) : List (String × String) → List (String × String)
  | [] => [(key, v)]
  | p :: rest =>
    if p.1 == key then (key, v) :: rest.filter (fun q => q.1 ≠ key)
    else p :: headersSetGo key v rest

/-- `MutableHeaders.__setitem__`. -/
def headersSet (hs : List (String × String)) (k v : String) : List (String × String) :=
  headersSetGo (strLower k) v hs

/-- `MutableHeaders.__delitem__`: remove every matching entry. -/
def headersDel (hs : List (String × String)) (k : String) : List (String × String) :=
  hs.filter (fun p => p.1 ≠ strLower k)

/-- `dict(headers)` on a raw header list: one entry per name, at the
position of its first occurrence, carrying the first value for that name
(starlette's `__getitem__` returns the first match). -/
def pyDict : List (String × String) → List (String × String)
  | [] => []
  | (k, v) :: rest => (k, v) :: (pyDict rest).filter (fun q => q.1 ≠ k)

/-! ## Requests, responses and the response codec (`utils/cache.py`) -/

/-- The request data the embedded code consumes: method, absolute URL
(`str(request.url)`), URL path (`request.url.path`), raw headers, and
whether the request carried any cookie (`bool(request.cookies)`). -/
structure Request where
  method : String
  url : String
  urlPath : String
  headers : List (String × String)
  cookies : Bool
  deriving DecidableEq, Repr

/-- A starlette response as the embedded code uses it: status code, raw
header pairs and rendered body bytes.  Responses enter the core either
rebuilt from held ASGI events, which overwrite `raw_headers` wholesale,
or through the `Response(...)` constructor in `deserialize_response`,
modelled by `init_headers` below. -/
structure Response where
  status_code : Nat
  headers : List (String × String)
  body : List Nat
  deriving DecidableEq, Repr

/-- The JSON-ready representation produced by `serialize_response`. -/
structure SResponse where
  content : List Char
  status_code : Nat
  headers : List (String × String)
  deriving DecidableEq, Repr

/-- `serialize_response`: base64 body, status code, `dict(response.headers)`. -/
def serialize_response (r : Response) : SResponse :=
  ⟨bytes_to_json_string r.body, r.status_code, pyDict r.headers⟩

/-- starlette `Response.init_headers` on a provided header mapping (the
constructor `deserialize_response` calls, `media_type` being `None`):
the names are lowercased for the raw list, and a
`content-length: str(len(body))` entry is appended when the mapping
names no `content-length` and the body is non-empty. -/
def init_headers (headers : List (String × String)) (body : List Nat) :
    List (String × String) :=
  let raw := headers.map (fun p => (strLower p.1, p.2))
  if (raw.map Prod.fst).contains "content-length" || body.isEmpty then raw
  else raw ++ [("content-length", (natChars body.length).asString)]

/-- `deserialize_response`: rebuild the response through the starlette
`Response(...)` constructor from the stored representation. -/
def deserialize_response (s : SResponse) : Response :=
  let body := json_string_to_bytes s.content
  ⟨s.status_code, init_headers s.headers body, body⟩

/-! ## The Cache-Control merge engine (`patch_cache_control`) -/

/-- A Python value held in the directive map or passed as a directive
override: a boolean, an integer, or a string (parsed directive values are
strings; bare directives map to `True`). -/
inductive PyVal
  | pbool (b : Bool)
  | pint (n : Int)
  | pstr (s : List Char)
  deriving DecidableEq, Repr

/-- `int(value)` on a directive value, as Python computes it
(`int(True) = 1`, `int(False) = 0`); `none` models `ValueError`. -/
def pyIntOfVal : PyVal → Option Int
  | .pbool true => some 1
  | .pbool false => some 0
  | .pint n => some n
  | .pstr s => pyInt s

/-- The numeric value `min` compares an override against; `none` models
the `TypeError` of comparing a string. -/
def numOfVal : PyVal → Option Int
  | .pbool true => some 1
  | .pbool false => some 0
  | .pint n => some n
  | .pstr _ => none

/-- Python `min(n, kv)`: returns the first argument on ties, otherwise
the smaller object itself. -/
def pyMinVal (n : Int) (kv : PyVal) : Option PyVal :=
  (numOfVal kv).map (fun m => if n ≤ m then .pint n else kv)

/-- `field.split("=")` with tuple unpacking: exactly one `'='` yields a
`key=value` pair, anything else makes the whole field a bare `True`
directive. -/
def ccParseField (field : List Char) : List Char × PyVal :=
  match splitEq field with
  | [k, v] => (k, .pstr v)
  | _ => (field, .pbool true)

/-- Ordered directive map: insertion-ordered association list, as a
Python `dict` iterates. -/
abbrev CCMap := List (List Char × PyVal)

/-- `d[k] = v` on an insertion-ordered dict: overwrite in place, else
append. -/
def alSet : CCMap → List Char → PyVal → CCMap
  | [], k, v => [(k, v)]
  | (k', v') :: rest, k, v =>
    if k' = k then (k', v) :: rest else (k', v') :: alSet rest k v

/-- Dict lookup. -/
def alLookup : CCMap → List Char → Option PyVal
  | [], _ => none
  | (k', v') :: rest, k => if k' = k then some v' else alLookup rest k

/-- Build the directive map from the parsed `Cache-Control` fields. -/
def ccOfFields (fields : List (List Char)) : CCMap :=
  fields.foldl (fun cc f => alSet cc (ccParseField f).1 (ccParseField f).2) []

/-- `key.replace("_", "-")` on an override name. -/
def hyphenate (k : List Char) : List Char :=
  k.map (fun c => if c = '_' then '-' else c)

/-- Override list (Python `**kwargs`): insertion-ordered names to values. -/
abbrev Kwargs := List (List Char × PyVal)

/-- The `max-age` merge: when both the parsed map and the overrides carry
a max-age, replace the override with `min(int(existing), override)`.
`none` models the `ValueError`/`TypeError` this can raise. -/
def adjustMaxAge (cc : CCMap) (kw : Kwargs) : Option Kwargs :=
  match alLookup cc "max-age".data, alLookup kw "max_age".data with
  | some ev, some kv =>
    match pyIntOfVal ev with
    | none => none
    | some n => (pyMinVal n kv).map (fun v => alSet kw "max_age".data v)
  | _, _ => some kw

/-- Merge the overrides into the map, hyphenating each name. -/
def mergeKw (cc : CCMap) (kw : Kwargs) : CCMap :=
  kw.foldl (fun cc p => alSet cc (hyphenate p.1) p.2) cc

/-- Serialize one directive: `False` is dropped, `True` renders bare,
anything else renders `key=value`. -/
def renderDirective (k : List Char) (v : PyVal) : Option (List Char) :=
  match v with
  | .pbool false => none
  | .pbool true => some k
  | .pint n => some (k ++ '=' :: intChars n)
  | .pstr s => some (k ++ '=' :: s)

/-- The serialized directive list of a map. -/
def renderDirectives (cc : CCMap) : List (List Char) :=
  cc.filterMap (fun p => renderDirective p.1 p.2)

/-- The merged directive map `patch_cache_control` builds from the
existing header value and the overrides, before re-serialization. -/
def patchCCMap (existing : List Char) (kw : Kwargs) : Except Exn CCMap :=
  let cc := ccOfFields (parseHttpListCore existing)
  match adjustMaxAge cc kw with
  | none => .error .valueError
  | some kw' =>
    if (alLookup kw "public".data).isSome then .error .notImplementedError
    else if (alLookup kw "private".data).isSome then .error .notImplementedError
    else .ok (mergeKw cc kw')

/-- `patch_cache_control` at the level of the `Cache-Control` value:
`ok none` means the header is removed, `ok (some v)` that it is set
to `v`. -/
def patchCCValue (existing : Option (List Char)) (kw : Kwargs) :
    Except Exn (Option (List Char)) :=
  match patchCCMap (existing.getD []) kw with
  | .error e => .error e
  | .ok cc =>
    let patched := List.intercalate ", ".data (renderDirectives cc)
    if patched.isEmpty then .ok none else .ok (some patched)

/-- `patch_cache_control` on a header list: read the current value, merge,
then either set the patched value or delete the header when the merged
serialization is empty. -/
def patch_cache_control (hs : List (String × String)) (kw : Kwargs) :
    Except Exn (List (String × String)) :=
  match patchCCValue ((headersGet hs "Cache-Control").map String.data) kw with
  | .error e => .error e
  | .ok none => .ok (headersDel hs "Cache-Control")
  | .ok (some v) => .ok (headersSet hs "Cache-Control" v.asString)

/-! ## The store and the cache-key derivation (`utils/cache.py`)

The store is an association list of string keys to values; a value is
either a varying-headers list (vary-index entries) or a serialized
response.  Every store access is recorded in a `CacheOp` trace so that
"no lookup occurs" / "no write occurs" claims are directly observable.
The md5 hex digest, the `make_key` namespacing hook, the clock and the
HTTP date formatter are opaque parameters gathered in `Ctx`. -/

/-- A value held by the external store. -/
inductive StoreVal
  | varyList (hs : List String)
  | sresp (r : SResponse)
  deriving DecidableEq, Repr

/-- The external key-value store. -/
abbrev Store := List (String × StoreVal)

/-- One observable store operation. -/
inductive CacheOp
  | read (key : String)
  | write (key : String) (v : StoreVal)
  deriving DecidableEq, Repr

/-- `cache.get`. -/
def storeLookup (store : Store) (k : String) : Option StoreVal :=
  (store.find? (fun p => p.1 == k)).map (·.2)

/-- `cache.get` where the code expects a serialized response.  A
vary-index value can never sit at a response key (the two key namespaces
carry distinct `cache_page.` / `varying_headers.` prefixes). -/
def storeRespLookup (store : Store) (k : String) : Option SResponse :=
  match storeLookup store k with
  | some (.sresp r) => some r
  | _ => none

/-- `cache.set`: overwrite in place or append. -/
def storeSet : Store → String → StoreVal → Store
  | [], k, v => [(k, v)]
  | (k', v') :: rest, k, v =>
    if k' = k then (k', v) :: rest else (k', v') :: storeSet rest k v

/-- The opaque environment: digest, namespacing hook, configured TTL,
clock, and date formatter.  The verified properties hold for every
instantiation. -/
structure Ctx where
  hash : String → String
  makeKey : String → String
  ttl : Option Nat
  now : Int
  httpDate : Int → String

/-- `ONE_YEAR` from `utils/cache.py`. -/
def ONE_YEAR : Nat := 60 * 60 * 24 * 365

/-- `generate_varying_headers_cache_key`: a key derived from the URL path
only. -/
def generate_varying_headers_cache_key (ctx : Ctx) (req : Request) : String :=
  ctx.makeKey ("varying_headers." ++ ctx.hash req.urlPath)

/-- `generate_cache_key`: a key derived from the method, the absolute URL
and the concatenated values of the varying request headers (absent
headers are skipped).  The `method` argument may differ from the
request's own method. -/
def generate_cache_key (ctx : Ctx) (req : Request) (method : String)
    (varying_headers : List String) : String :=
  let vary := varying_headers.foldl
    (fun acc h => match headersGet req.headers h with
      | some v => acc ++ v
      | none => acc) ""
  ctx.makeKey ("cache_page." ++ method ++ "." ++ ctx.hash req.url ++ "." ++ ctx.hash vary)

/-- The varying-headers list `learn_cache_key` stores: the response's
`Vary` header parsed as an HTTP list, lowercased, then sorted. -/
def varyingHeadersOf (resp : Response) : List String :=
  match headersGet resp.headers "Vary" with
  | none => []
  | some v =>
    ((parse_http_list v).map strLower).insertionSort (fun a b => strLe a b = true)

/-- `learn_cache_key`: store the varying-headers list at the vary-index
key, then return the response key for the request's own method. -/
def learn_cache_key (ctx : Ctx) (req : Request) (resp : Response) (store : Store) :
    String × Store × List CacheOp :=
  let vkey := generate_varying_headers_cache_key ctx req
  let vh := varyingHeadersOf resp
  (generate_cache_key ctx req req.method vh,
   storeSet store vkey (.varyList vh),
   [.write vkey (.varyList vh)])

/-- `get_cache_key`: read the vary-index entry; `none` when it is absent,
otherwise recompute the response key. -/
def get_cache_key (ctx : Ctx) (req : Request) (method : String) (store : Store) :
    Option String × List CacheOp :=
  let vkey := generate_varying_headers_cache_key ctx req
  match storeLookup store vkey with
  | some (.varyList vh) => (some (generate_cache_key ctx req method vh), [.read vkey])
  | _ => (none, [.read vkey])

/-- `get_from_cache`: raise `RequestNotCachable` for non-GET/HEAD
methods; look the GET-variant key up; on a response miss fall back to the
HEAD-variant key; the `assert cache_key is not None` is modelled as
`AssertionError`. -/
def get_from_cache (ctx : Ctx) (req : Request) (store : Store) :
    Except Exn (Option Response) × List CacheOp :=
  if ¬(req.method = "GET" ∨ req.method = "HEAD") then
    (.error .requestNotCachable, [])
  else
    match get_cache_key ctx req "GET" store with
    | (none, ops1) => (.ok none, ops1)
    | (some k, ops1) =>
      match storeRespLookup store k with
      | some sr => (.ok (some (deserialize_response sr)), ops1 ++ [.read k])
      | none =>
        match get_cache_key ctx req "HEAD" store with
        | (none, ops2) => (.error .assertionError, ops1 ++ [.read k] ++ ops2)
        | (some k2, ops2) =>
          match storeRespLookup store k2 with
          | some sr =>
            (.ok (some (deserialize_response sr)), ops1 ++ [.read k] ++ ops2 ++ [.read k2])
          | none => (.ok none, ops1 ++ [.read k] ++ ops2 ++ [.read k2])

/-- `store_in_cache`: the cacheability checks, then freshness-header
injection (`get_cache_response_headers` plus `headers.update`), then
`learn_cache_key`, serialization and the store write.  Returns the
response carrying the patched headers. -/
def store_in_cache (ctx : Ctx) (resp : Response) (req : Request) (store : Store) :
    Except Exn (Response × Store) × List CacheOp :=
  if ¬(resp.status_code = 200 ∨ resp.status_code = 304) then
    (.error .responseNotCachable, [])
  else if ¬req.cookies ∧ headersHas resp.headers "Set-Cookie" then
    (.error .responseNotCachable, [])
  else if ctx.ttl = some 0 then
    (.error .responseNotCachable, [])
  else
    let max_age := ctx.ttl.getD ONE_YEAR
    match patch_cache_control resp.headers [("max_age".data, .pint max_age)] with
    | .error e => (.error e, [])
    | .ok hs1 =>
      let hs2 :=
        if headersHas resp.headers "Expires" then hs1
        else headersSet hs1 "Expires" (ctx.httpDate (ctx.now + max_age))
      let resp' := { resp with headers := hs2 }
      let (ckey, store', ops1) := learn_cache_key ctx req resp' store
      let sr := serialize_response resp'
      (.ok (resp', storeSet store' ckey (.sresp sr)), ops1 ++ [.write ckey (.sresp sr)])

/-! ## The response interceptor (`middleware.py`, `CacheResponder`) -/

/-- An ASGI response event.  `empty` is the `{}` dict `CacheResponder`
holds before any `http.response.start` arrives. -/
inductive Message
  | start (status : Nat) (headers : List (String × String))
  | body (body : List Nat) (more_body : Bool)
  | empty
  deriving DecidableEq, Repr

/-- The per-request fields of `CacheResponder`, plus the list of events
already forwarded to the downstream `send`. -/
structure ResponderState where
  request : Request
  is_response_cachable : Bool
  initial_message : Message
  sent : List Message
  deriving DecidableEq, Repr

/-- `CacheResponder` fields as `__call__` initializes them on a miss. -/
def responderInit (req : Request) : ResponderState :=
  ⟨req, true, .empty, []⟩

/-- `CacheResponder.send_with_caching`, one event at a time.  Once the
response is marked not cachable every event is forwarded verbatim; the
first `http.response.start` is held back; a body event with
`more_body=true` flushes the held event, marks the response not
cachable and forwards; the final body event rebuilds a response, tries
`store_in_cache` (recovering from `ResponseNotCachable`), applies the
headers the storage step patched, and forwards. -/
def send_with_caching (ctx : Ctx) (st : ResponderState) (store : Store)
    (msg : Message) : Except Exn (ResponderState × Store) × List CacheOp :=
  if ¬st.is_response_cachable then
    (.ok ({ st with sent := st.sent ++ [msg] }, store), [])
  else
    match msg with
    | .start _ _ => (.ok ({ st with initial_message := msg }, store), [])
    | .empty => (.error .assertionError, [])
    | .body b more =>
      if more then
        (.ok ({ st with
                is_response_cachable := false,
                sent := st.sent ++ [st.initial_message, msg] }, store), [])
      else
        match st.initial_message with
        | .start status hs =>
          let resp : Response := ⟨status, hs, b⟩
          match store_in_cache ctx resp st.request store with
          | (.error .responseNotCachable, ops) =>
            (.ok ({ st with
                    is_response_cachable := false,
                    sent := st.sent ++ [st.initial_message, msg] }, store), ops)
          | (.error e, ops) => (.error e, ops)
          | (.ok (resp', store'), ops) =>
            let held := Message.start status resp'.headers
            (.ok ({ st with
                    initial_message := held,
                    sent := st.sent ++ [held, msg] }, store'), ops)
        | _ => (.error .assertionError, [])

/-- Feed a list of response events through `send_with_caching`. -/
def responderRun (ctx : Ctx) : ResponderState → Store → List Message →
    Except Exn (ResponderState × Store) × List CacheOp
  | st, store, [] => (.ok (st, store), [])
  | st, store, m :: ms =>
    match send_with_caching ctx st store m with
    | (.ok (st', store'), ops) =>
      let (r, ops') := responderRun ctx st' store' ms
      (r, ops ++ ops')
    | (.error e, ops) => (.error e, ops)

/-- The events a cached starlette response emits when served. -/
def responseMessages (r : Response) : List Message :=
  [.start r.status_code r.headers, .body r.body false]

/-- `CacheResponder.__call__` for an http scope: look the request up,
recover from `RequestNotCachable` by running the application as a plain
passthrough, serve a hit from the cache, and on a miss run the
application under `send_with_caching`.  The result is the list of events
handed to the downstream `send` and the final store. -/
def responderCall (ctx : Ctx) (req : Request) (store : Store)
    (appMsgs : List Message) : Except Exn (List Message × Store) × List CacheOp :=
  match get_from_cache ctx req store with
  | (.error .requestNotCachable, ops) => (.ok (appMsgs, store), ops)
  | (.error e, ops) => (.error e, ops)
  | (.ok (some resp), ops) => (.ok (responseMessages resp, store), ops)
  | (.ok none, ops) =>
    match responderRun ctx (responderInit req) store appMsgs with
    | (.ok (st, store'), ops2) => (.ok (st.sent, store'), ops ++ ops2)
    | (.error e, ops2) => (.error e, ops ++ ops2)

/-! ## Shared concrete instances for witnesses -/

/-- A concrete context: identity digest and namespacing, TTL of 120 s. -/
def wCtx : Ctx := ⟨id, id, some 120, 0, fun _ => "Thu, 01 Jan 1970 00:02:00 GMT"⟩

/-- A concrete cookie-less GET request. -/
def wReqGet : Request := ⟨"GET", "http://testserver/a", "/a", [], false⟩

/-- A concrete cookie-less HEAD request for the same URL. -/
def wReqHead : Request := ⟨"HEAD", "http://testserver/a", "/a", [], false⟩

/-- A store holding a vary-index entry for `/a` (no varying headers) and a
serialized response at the HEAD-variant key only. -/
def wStoreHead : Store :=
  [("varying_headers./a", .varyList []),
   ("cache_page.HEAD.http://testserver/a.", .sresp ⟨"SGk=\n".data, 200, []⟩)]

/-! ## C10 — the fallback assertion in `get_from_cache` never fails -/

/-- C10: whenever the GET-variant key computation in `get_from_cache`
succeeded (the vary-index entry for the request's URL path was found) and
the store is unchanged between the two reads, the HEAD-variant key
recomputation also yields a key, so `assert cache_key is not None` cannot
fail: `get_cache_key` returns `none` only when the vary-index entry is
absent. -/
theorem get_cache_key_head_some_of_get_some (ctx : Ctx) (req : Request)
    (store : Store) (k : String)
    (h : (get_cache_key ctx req "GET" store).1 = some k) :
    ∃ k2, (get_cache_key ctx req "HEAD" store).1 = some k2 := by
  simp only [get_cache_key] at h ⊢
  cases hv : storeLookup store (generate_varying_headers_cache_key ctx req) with
  | none => simp [hv] at h
  | some v =>
    cases v with
    | varyList vh => exact ⟨_, rfl⟩
    | sresp r => simp [hv] at h

/-- Witness for C10 at the concrete store. -/
theorem get_cache_key_head_some_of_get_some_witness :
    ∃ k2, (get_cache_key wCtx wReqGet "HEAD" wStoreHead).1 = some k2 :=
  get_cache_key_head_some_of_get_some wCtx wReqGet wStoreHead
    "cache_page.GET.http://testserver/a." (by decide)

/-! ## C5 — non-GET/HEAD requests pass through untouched -/

/-- C5: for a request whose method is neither GET nor HEAD, the cache
middleware performs no store lookup and no store write (the operation
trace is empty), forwards the request to the application and passes its
response events through unmodified; the `RequestNotCachable` raised by
`get_from_cache` is recovered locally, so the call returns normally. -/
theorem responderCall_passthrough (ctx : Ctx) (req : Request) (store : Store)
    (appMsgs : List Message) (h1 : req.method ≠ "GET") (h2 : req.method ≠ "HEAD") :
    responderCall ctx req store appMsgs = (.ok (appMsgs, store), []) := by
  unfold responderCall get_from_cache
  rw [if_pos (by tauto)]

/-- Witness for C5 at a concrete POST request. -/
theorem responderCall_passthrough_witness :
    responderCall wCtx ⟨"POST", "http://testserver/a", "/a", [], false⟩ wStoreHead
        [.start 200 [], .body [1, 2] false] =
      (.ok ([.start 200 [], .body [1, 2] false], wStoreHead), []) :=
  responderCall_passthrough wCtx _ wStoreHead _ (by decide) (by decide)

/-! ## C1 — streaming responses: no store write, verbatim forwarding -/

/-- Once `is_response_cachable` is off, every further event is forwarded
verbatim with no store traffic. -/
theorem responderRun_not_cachable (ctx : Ctx) (st : ResponderState)
    (store : Store) (msgs : List Message)
    (h : st.is_response_cachable = false) :
    responderRun ctx st store msgs =
      (.ok ({ st with sent := st.sent ++ msgs }, store), []) := by
  induction msgs generalizing st with
  | nil => simp [responderRun]
  | cons m ms ih =>
    obtain ⟨rq, ca, init, sent⟩ := st
    replace h : ca = false := h
    subst h
    unfold responderRun send_with_caching
    simp only [Bool.false_eq_true, not_false_eq_true, if_pos]
    rw [ih ⟨rq, false, init, sent ++ [m]⟩ rfl]
    simp

/-- A body event with `more_body=true` arriving while the response is
still considered cachable: the held event is flushed, the body event
follows it, the response is marked not cachable, with no store traffic. -/
theorem send_with_caching_body_more (ctx : Ctx) (rq : Request) (init : Message)
    (sent : List Message) (store : Store) (b : List Nat) :
    send_with_caching ctx ⟨rq, true, init, sent⟩ store (.body b true) =
      (.ok (⟨rq, false, init, sent ++ [init, .body b true]⟩, store), []) := rfl

/-- C1: on a cache miss, from the moment a body event with
`more_body=true` arrives (the held header event being `initial`), the
held header event is forwarded first, then that body event, then every
subsequent event verbatim; the store is unchanged and the operation
trace is empty, so no `cache.set` is ever performed for the response. -/
theorem send_with_caching_streaming (ctx : Ctx) (req : Request)
    (store : Store) (prior : List Message) (status : Nat)
    (hs : List (String × String)) (b : List Nat) (rest : List Message) :
    responderRun ctx ⟨req, true, .start status hs, prior⟩ store
        (.body b true :: rest) =
      (.ok (⟨req, false, .start status hs,
             prior ++ (.start status hs :: .body b true :: rest)⟩, store), []) := by
  unfold responderRun
  rw [send_with_caching_body_more]
  dsimp only
  have heq := responderRun_not_cachable ctx
    ⟨req, false, Message.start status hs,
      prior ++ [Message.start status hs, Message.body b true]⟩
    store rest rfl
  rw [heq]
  simp

/-! ## C7 — the `store_in_cache` cacheability rules -/

/-- `patchCCMap` can only fail with `ValueError` or `NotImplementedError`. -/
theorem patchCCMap_error_cases (ex : List Char) (kw : Kwargs) (e : Exn)
    (h : patchCCMap ex kw = .error e) :
    e = .valueError ∨ e = .notImplementedError := by
  simp only [patchCCMap] at h
  cases hm : adjustMaxAge (ccOfFields (parseHttpListCore ex)) kw with
  | none =>
    rw [hm] at h
    injection h with h'
    exact Or.inl h'.symm
  | some kw' =>
    rw [hm] at h
    split_ifs at h with h1 h2
    · injection h with h'; exact Or.inr h'.symm
    · injection h with h'; exact Or.inr h'.symm

/-- `patch_cache_control` can only fail with `ValueError` or
`NotImplementedError`; in particular it never raises the cacheability
signals. -/
theorem patch_cache_control_error_cases (hs : List (String × String))
    (kw : Kwargs) (e : Exn) (h : patch_cache_control hs kw = .error e) :
    e = .valueError ∨ e = .notImplementedError := by
  unfold patch_cache_control at h
  cases hv : patchCCValue ((headersGet hs "Cache-Control").map String.data) kw with
  | error e' =>
    rw [hv] at h
    injection h with h'
    subst h'
    unfold patchCCValue at hv
    cases hm : patchCCMap (((headersGet hs "Cache-Control").map String.data).getD []) kw with
    | error e'' =>
      rw [hm] at hv
      injection hv with h''
      subst h''
      exact patchCCMap_error_cases _ _ _ hm
    | ok cc =>
      rw [hm] at hv
      dsimp only at hv
      split_ifs at hv
  | ok v =>
    rw [hv] at h
    cases v <;> exact Except.noConfusion h

/-- The raise condition of `store_in_cache`, exactly as coded. -/
theorem store_in_cache_raises_iff (ctx : Ctx) (resp : Response) (req : Request)
    (store : Store) :
    (store_in_cache ctx resp req store).1 = .error .responseNotCachable ↔
      (¬(resp.status_code = 200 ∨ resp.status_code = 304) ∨
        (¬req.cookies ∧ headersHas resp.headers "Set-Cookie" = true) ∨
        ctx.ttl = some 0) := by
  simp only [store_in_cache]
  split_ifs with h1 h2 h3 h4 <;>
    first
    | exact iff_of_true rfl (Or.inl h1)
    | exact iff_of_true rfl (Or.inr (Or.inl h2))
    | exact iff_of_true rfl (Or.inr (Or.inr h3))
    | · cases hp : patch_cache_control resp.headers
          [("max_age".data, .pint (ctx.ttl.getD ONE_YEAR : Int))] with
        | error e =>
          refine iff_of_false (fun he => ?_) (by tauto)
          injection he with he'
          rcases patch_cache_control_error_cases _ _ _ hp with h | h <;>
            simp [h] at he'
        | ok hs1 =>
          dsimp only
          exact iff_of_false (fun he => Except.noConfusion he) (by tauto)

/-- When `store_in_cache` raises `ResponseNotCachable` no store operation
at all has been performed. -/
theorem store_in_cache_raise_no_write (ctx : Ctx) (resp : Response)
    (req : Request) (store : Store)
    (h : (store_in_cache ctx resp req store).1 = .error .responseNotCachable) :
    (store_in_cache ctx resp req store).2 = [] := by
  simp only [store_in_cache] at h ⊢
  split_ifs at h ⊢ <;> try rfl
  all_goals
    cases hp : patch_cache_control resp.headers
        [("max_age".data, .pint (ctx.ttl.getD ONE_YEAR : Int))] with
    | error e => rfl
    | ok hs1 =>
      rw [hp] at h
      dsimp only at h
      exact Except.noConfusion h

/-- `learn_cache_key` does not read the TTL. -/
theorem learn_cache_key_ttl_irrel (ctx : Ctx) (t : Option Nat) (req : Request)
    (resp : Response) (store : Store) :
    learn_cache_key { ctx with ttl := t } req resp store =
      learn_cache_key ctx req resp store := rfl

/-- An unspecified TTL behaves exactly like a TTL of one year. -/
theorem store_in_cache_ttl_default (ctx : Ctx) (resp : Response)
    (req : Request) (store : Store) :
    store_in_cache { ctx with ttl := none } resp req store =
      store_in_cache { ctx with ttl := some ONE_YEAR } resp req store := by
  rfl

/-- C7: `store_in_cache` raises `ResponseNotCachable` — performing no
store write — exactly when the status code is outside {200, 304}, or the
response sets a cookie while the request carried none, or the configured
TTL is zero; an unspecified TTL is not uncachable and is treated as a
max-age of one year (31536000 seconds). -/
theorem store_in_cache_not_cachable_rules (ctx : Ctx) (resp : Response)
    (req : Request) (store : Store) :
    ((store_in_cache ctx resp req store).1 = .error .responseNotCachable ↔
      (¬(resp.status_code = 200 ∨ resp.status_code = 304) ∨
        (¬req.cookies ∧ headersHas resp.headers "Set-Cookie" = true) ∨
        ctx.ttl = some 0)) ∧
    ((store_in_cache ctx resp req store).1 = .error .responseNotCachable →
      (store_in_cache ctx resp req store).2 = []) ∧
    (store_in_cache { ctx with ttl := none } resp req store =
      store_in_cache { ctx with ttl := some 31536000 } resp req store) :=
  ⟨store_in_cache_raises_iff ctx resp req store,
   store_in_cache_raise_no_write ctx resp req store,
   store_in_cache_ttl_default ctx resp req store⟩

/-- Looking up the key just written returns the value just written. -/
theorem storeLookup_storeSet_self (store : Store) (k : String) (v : StoreVal) :
    storeLookup (storeSet store k v) k = some v := by
  induction store with
  | nil => simp [storeSet, storeLookup]
  | cons p rest ih =>
    by_cases h : p.1 = k
    · simp [storeSet, storeLookup, h]
    · simpa [storeSet, storeLookup, h] using ih

/-! ## C2 — the HEAD-variant fallback in `get_from_cache`

The code falls back to the HEAD-variant key on *every* response miss,
not only for HEAD requests (`test_use_cached_head_response_on_get`
exercises exactly that): a GET request whose GET-variant key misses is
served from a previously cached HEAD response. -/

/-- C2 counterexample: a GET request, a store holding the vary-index
entry and a response at the HEAD-variant key only.  The claim says the
lookup must end with `None` after the GET-variant miss; the code returns
the HEAD-cached response instead. -/
theorem get_from_cache_get_falls_back_to_head :
    (get_from_cache wCtx wReqGet wStoreHead).1 =
        .ok (some (deserialize_response ⟨"SGk=\n".data, 200, []⟩)) ∧
      (get_from_cache wCtx wReqGet wStoreHead).1 ≠ .ok none := by
  refine ⟨rfl, ?_⟩
  intro h
  rw [show (get_from_cache wCtx wReqGet wStoreHead).1 =
    .ok (some (deserialize_response ⟨"SGk=\n".data, 200, []⟩)) from rfl] at h
  exact Option.noConfusion (Except.ok.inj h)

/-- C2 amended: for a GET or HEAD request whose vary-index entry is
present, a hit on the GET-variant response key is served directly (in
particular a prior cached GET response satisfies a later HEAD request at
the same URL and vary fingerprint), and on a GET-variant miss the lookup
falls back to the HEAD-variant response key regardless of the request's
method. -/
theorem get_from_cache_fallback (ctx : Ctx) (req : Request) (store : Store)
    (vh : List String)
    (hm : req.method = "GET" ∨ req.method = "HEAD")
    (hv : storeLookup store (generate_varying_headers_cache_key ctx req) =
      some (.varyList vh)) :
    (∀ sr, storeRespLookup store (generate_cache_key ctx req "GET" vh) = some sr →
        (get_from_cache ctx req store).1 = .ok (some (deserialize_response sr))) ∧
      (storeRespLookup store (generate_cache_key ctx req "GET" vh) = none →
        (get_from_cache ctx req store).1 =
          .ok ((storeRespLookup store
            (generate_cache_key ctx req "HEAD" vh)).map deserialize_response)) := by
  unfold get_from_cache
  rw [if_neg (by tauto)]
  simp only [get_cache_key, hv]
  constructor
  · intro sr hsr
    rw [hsr]
  · intro hmiss
    rw [hmiss]
    cases h2 : storeRespLookup store (generate_cache_key ctx req "HEAD" vh) <;> rfl

/-- Witness for C2's amended claim: a HEAD request served from the
GET-variant entry a previous GET request stored. -/
theorem get_from_cache_fallback_witness :
    (get_from_cache wCtx wReqHead
        [("varying_headers./a", .varyList []),
         ("cache_page.GET.http://testserver/a.", .sresp ⟨"SGk=\n".data, 200, []⟩)]).1 =
      .ok (some (deserialize_response ⟨"SGk=\n".data, 200, []⟩)) :=
  (get_from_cache_fallback wCtx wReqHead
      [("varying_headers./a", .varyList []),
       ("cache_page.GET.http://testserver/a.", .sresp ⟨"SGk=\n".data, 200, []⟩)]
      [] (Or.inr rfl) (by decide)).1 ⟨"SGk=\n".data, 200, []⟩ (by decide)

/-! ## C6 — the stored varying-headers list is sorted but not deduplicated -/

/-- The string comparison is total. -/
theorem charListLe_total (a b : List Char) :
    charListLe a b = true ∨ charListLe b a = true := by
  induction a generalizing b with
  | nil => left; rfl
  | cons x xs ih =>
    cases b with
    | nil => right; rfl
    | cons y ys =>
      rcases Nat.lt_trichotomy x.toNat y.toNat with h | h | h
      · left; simp [charListLe, h]
      · rcases ih ys with hr | hr
        · left; simp [charListLe, h, hr]
        · right; simp [charListLe, h.symm, hr]
      · right; simp [charListLe, h]

/-- The string comparison is transitive. -/
theorem charListLe_trans {a b c : List Char} (h1 : charListLe a b = true)
    (h2 : charListLe b c = true) : charListLe a c = true := by
  induction a generalizing b c with
  | nil => rfl
  | cons x xs ih =>
    cases b with
    | nil => simp [charListLe] at h1
    | cons y ys =>
      cases c with
      | nil => simp [charListLe] at h2
      | cons z zs =>
        simp only [charListLe] at h1 h2 ⊢
        rcases Nat.lt_trichotomy x.toNat y.toNat with hxy | hxy | hxy
        · rcases Nat.lt_trichotomy y.toNat z.toNat with hyz | hyz | hyz
          · rw [if_pos (show x.toNat < z.toNat by omega)]
          · rw [if_pos (show x.toNat < z.toNat by omega)]
          · rw [if_neg (show ¬(y.toNat < z.toNat) by omega),
              if_pos (show z.toNat < y.toNat by omega)] at h2
            exact absurd h2 (by simp)
        · rcases Nat.lt_trichotomy y.toNat z.toNat with hyz | hyz | hyz
          · rw [if_pos (show x.toNat < z.toNat by omega)]
          · rw [if_neg (show ¬(x.toNat < y.toNat) by omega),
              if_neg (show ¬(y.toNat < x.toNat) by omega)] at h1
            rw [if_neg (show ¬(y.toNat < z.toNat) by omega),
              if_neg (show ¬(z.toNat < y.toNat) by omega)] at h2
            rw [if_neg (show ¬(x.toNat < z.toNat) by omega),
              if_neg (show ¬(z.toNat < x.toNat) by omega)]
            exact ih h1 h2
          · rw [if_neg (show ¬(y.toNat < z.toNat) by omega),
              if_pos (show z.toNat < y.toNat by omega)] at h2
            exact absurd h2 (by simp)
        · rw [if_neg (show ¬(x.toNat < y.toNat) by omega),
            if_pos (show y.toNat < x.toNat by omega)] at h1
          exact absurd h1 (by simp)

instance : IsTotal String (fun a b => strLe a b = true) :=
  ⟨fun a b => charListLe_total a.data b.data⟩

instance : IsTrans String (fun a b => strLe a b = true) :=
  ⟨fun _ _ _ h1 h2 => charListLe_trans h1 h2⟩

/-- C6 counterexample: `learn_cache_key` stores the parsed `Vary` names
lowercased and sorted but does *not* deduplicate them: a response with
`Vary: Accept, Accept` stores `["accept", "accept"]`. -/
theorem learn_cache_key_stores_duplicates :
    (learn_cache_key wCtx wReqGet ⟨200, [("vary", "Accept, Accept")], []⟩ []).2.1 =
        [("varying_headers./a", .varyList ["accept", "accept"])] ∧
      ¬ (varyingHeadersOf ⟨200, [("vary", "Accept, Accept")], []⟩).Nodup := by
  constructor
  · rfl
  · intro h
    rw [show varyingHeadersOf ⟨200, [("vary", "Accept, Accept")], []⟩ =
      ["accept", "accept"] from rfl] at h
    simp at h

/-- C6 amended: the list `learn_cache_key` stores at the vary-index key
is the response's `Vary` header parsed as an HTTP list, lowercased and
sorted lexicographically — duplicate names are kept. -/
theorem learn_cache_key_varying_sorted (ctx : Ctx) (req : Request)
    (resp : Response) (store : Store) (v : String)
    (hv : headersGet resp.headers "Vary" = some v) :
    storeLookup (learn_cache_key ctx req resp store).2.1
        (generate_varying_headers_cache_key ctx req) =
        some (.varyList (varyingHeadersOf resp)) ∧
      (varyingHeadersOf resp).Sorted (fun a b => strLe a b = true) ∧
      (varyingHeadersOf resp).Perm ((parse_http_list v).map strLower) := by
  refine ⟨?_, ?_, ?_⟩
  · unfold learn_cache_key
    exact storeLookup_storeSet_self store _ _
  · unfold varyingHeadersOf
    rw [hv]
    exact List.sorted_insertionSort _ _
  · unfold varyingHeadersOf
    rw [hv]
    exact List.perm_insertionSort _ _

/-- Witness for C6's amended claim. -/
theorem learn_cache_key_varying_sorted_witness :
    storeLookup (learn_cache_key wCtx wReqGet
          ⟨200, [("vary", "User-Agent, Accept-Encoding")], []⟩ []).2.1
        (generate_varying_headers_cache_key wCtx wReqGet) =
        some (.varyList (varyingHeadersOf
          ⟨200, [("vary", "User-Agent, Accept-Encoding")], []⟩)) ∧
      (varyingHeadersOf ⟨200, [("vary", "User-Agent, Accept-Encoding")], []⟩).Sorted
        (fun a b => strLe a b = true) ∧
      (varyingHeadersOf ⟨200, [("vary", "User-Agent, Accept-Encoding")], []⟩).Perm
        ((parse_http_list "User-Agent, Accept-Encoding").map strLower) :=
  learn_cache_key_varying_sorted wCtx wReqGet
    ⟨200, [("vary", "User-Agent, Accept-Encoding")], []⟩ [] _ rfl

/-! ## C3 — the response codec round-trip -/

/-- The base64 alphabet decodes its own encoding. -/
theorem b64_char_roundtrip : ∀ s : Fin 64,
    b64DecodeChar (b64EncodeChar s.val) = some s.val := by decide

/-- Every sextet the encoder emits is below 64. -/
theorem b64Sextets_lt (c : List Nat) (h : ∀ b ∈ c, b < 256) :
    ∀ x ∈ b64Sextets c, x < 64 := by
  induction c using b64Sextets.induct with
  | case1 a b c3 rest ih =>
    intro x hx
    have ha := h a (by simp)
    have hb := h b (by simp)
    have hc := h c3 (by simp)
    simp only [b64Sextets, List.mem_cons] at hx
    rcases hx with rfl | rfl | rfl | rfl | hx
    · omega
    · omega
    · omega
    · omega
    · exact ih (fun y hy => h y (by simp [hy])) x hx
  | case2 a b =>
    intro x hx
    have ha := h a (by simp)
    have hb := h b (by simp)
    simp only [b64Sextets, List.mem_cons] at hx
    rcases hx with rfl | rfl | rfl | hx
    · omega
    · omega
    · omega
    · simp at hx
  | case3 a =>
    intro x hx
    have ha := h a (by simp)
    simp only [b64Sextets, List.mem_cons] at hx
    rcases hx with rfl | rfl | hx
    · omega
    · omega
    · simp at hx
  | case4 => simp [b64Sextets]

/-- Decoding the encoded characters of a sextet list recovers it. -/
theorem filterMap_decode_map_encode (l : List Nat) (h : ∀ x ∈ l, x < 64) :
    (l.map b64EncodeChar).filterMap b64DecodeChar = l := by
  induction l with
  | nil => rfl
  | cons x xs ih =>
    have hx := b64_char_roundtrip ⟨x, h x (by simp)⟩
    simp only [List.map_cons, List.filterMap_cons, hx]
    rw [ih (fun y hy => h y (by simp [hy]))]

/-- Skipping the non-alphabet characters of one encoded slice leaves
exactly its sextets. -/
theorem filterMap_decode_encodeCore (c : List Nat) (h : ∀ b ∈ c, b < 256) :
    (b64EncodeCore c).filterMap b64DecodeChar = b64Sextets c := by
  unfold b64EncodeCore
  rw [List.filterMap_append, filterMap_decode_map_encode _ (b64Sextets_lt c h)]
  rcases show c.length % 3 = 0 ∨ c.length % 3 = 1 ∨ c.length % 3 = 2 by omega with
    h3 | h3 | h3 <;> rw [h3] <;>
    simp [show b64DecodeChar '=' = none from rfl]

/-- Decoding the sextets of a byte-complete slice prepended to a stream
peels the slice off. -/
theorem b64DecodeQuads_append (c t : List Nat) (h3 : c.length % 3 = 0)
    (hb : ∀ b ∈ c, b < 256) :
    b64DecodeQuads (b64Sextets c ++ t) = c ++ b64DecodeQuads t := by
  induction c using b64Sextets.induct with
  | case1 a b c3 rest ih =>
    have ha := hb a (by simp)
    have hb2 := hb b (by simp)
    have hc := hb c3 (by simp)
    simp only [b64Sextets, List.cons_append, b64DecodeQuads, List.cons.injEq]
    refine ⟨by omega, by omega, by omega, ?_⟩
    exact ih (by simp only [List.length_cons] at h3; omega)
      (fun y hy => hb y (by simp [hy]))
  | case2 a b => simp at h3
  | case3 a => simp at h3
  | case4 => simp [b64Sextets, b64DecodeQuads]

/-- Decoding the sextets of the final slice recovers its bytes, padding
cases included. -/
theorem b64DecodeQuads_sextets (c : List Nat) (hb : ∀ b ∈ c, b < 256) :
    b64DecodeQuads (b64Sextets c) = c := by
  induction c using b64Sextets.induct with
  | case1 a b c3 rest ih =>
    have ha := hb a (by simp)
    have hb2 := hb b (by simp)
    have hc := hb c3 (by simp)
    simp only [b64Sextets, b64DecodeQuads, List.cons.injEq]
    refine ⟨by omega, by omega, by omega, ?_⟩
    exact ih (fun y hy => hb y (by simp [hy]))
  | case2 a b =>
    have ha := hb a (by simp)
    have hb2 := hb b (by simp)
    simp only [b64Sextets, b64DecodeQuads, List.cons.injEq]
    exact ⟨by omega, by omega, trivial⟩
  | case3 a =>
    have ha := hb a (by simp)
    simp only [b64Sextets, b64DecodeQuads, List.cons.injEq]
    exact ⟨by omega, trivial⟩
  | case4 => rfl

/-- Skipping non-alphabet characters of the line-wrapped encoding leaves
the concatenated sextet streams of the slices (fuel-general form). -/
theorem filterMap_decode_chunksGo (fuel : Nat) (bs : List Nat)
    (hf : bs.length ≤ fuel) (h : ∀ b ∈ bs, b < 256) :
    ((chunks57Go fuel bs).flatMap
        (fun c => b64EncodeCore c ++ ['\n'])).filterMap b64DecodeChar =
      (chunks57Go fuel bs).flatMap b64Sextets := by
  induction fuel generalizing bs with
  | zero =>
    cases bs with
    | nil => rfl
    | cons x t => simp at hf
  | succ fuel ih =>
    cases bs with
    | nil => rfl
    | cons x t =>
      simp only [chunks57Go, List.flatMap_cons, List.filterMap_append]
      rw [filterMap_decode_encodeCore _ (fun y hy => h y (List.mem_of_mem_take hy)),
        ih _ (by simp only [List.length_drop]; simp at hf ⊢; omega)
          (fun y hy => h y (List.mem_of_mem_drop hy))]
      simp [show b64DecodeChar '\n' = none from rfl]

/-- Skipping non-alphabet characters of the full line-wrapped encoding
leaves the concatenated sextet streams of the slices. -/
theorem filterMap_decode_encodebytes (bs : List Nat) (h : ∀ b ∈ bs, b < 256) :
    (encodebytes bs).filterMap b64DecodeChar =
      (chunks57 bs).flatMap b64Sextets :=
  filterMap_decode_chunksGo bs.length bs le_rfl h

/-- Decoding the concatenated slice sextets recovers the bytes
(fuel-general form). -/
theorem b64DecodeQuads_chunksGo (fuel : Nat) (bs : List Nat)
    (hf : bs.length ≤ fuel) (h : ∀ b ∈ bs, b < 256) :
    b64DecodeQuads ((chunks57Go fuel bs).flatMap b64Sextets) = bs := by
  induction fuel generalizing bs with
  | zero =>
    cases bs with
    | nil => rfl
    | cons x t => simp at hf
  | succ fuel ih =>
    cases bs with
    | nil => rfl
    | cons x t =>
      simp only [chunks57Go, List.flatMap_cons]
      by_cases hd : (x :: t).drop 57 = []
      · have hlen : (x :: t).length ≤ 57 := by
          have hld := List.length_drop 57 (x :: t)
          rw [hd] at hld
          simp only [List.length_nil] at hld
          omega
        rw [hd, show chunks57Go fuel ([] : List Nat) = [] from by cases fuel <;> rfl]
        simp only [List.flatMap_nil, List.append_nil]
        rw [b64DecodeQuads_sextets _ (fun y hy => h y (List.mem_of_mem_take hy))]
        exact List.take_of_length_le hlen
      · have hlen : 57 < (x :: t).length := by
          by_contra hcon
          push_neg at hcon
          exact hd (List.drop_eq_nil_of_le hcon)
        have htake : ((x :: t).take 57).length % 3 = 0 := by
          rw [List.length_take]
          omega
        rw [b64DecodeQuads_append _ _ htake (fun y hy => h y (List.mem_of_mem_take hy)),
          ih _ (by simp only [List.length_drop]; simp at hf ⊢; omega)
            (fun y hy => h y (List.mem_of_mem_drop hy))]
        exact List.take_append_drop 57 (x :: t)

/-- Decoding the concatenated slice sextets recovers the bytes. -/
theorem b64DecodeQuads_flat_chunks (bs : List Nat) (h : ∀ b ∈ bs, b < 256) :
    b64DecodeQuads ((chunks57 bs).flatMap b64Sextets) = bs :=
  b64DecodeQuads_chunksGo bs.length bs le_rfl h

/-- `dict(headers)` is the identity on a header list with distinct names. -/
theorem pyDict_eq_self (hs : List (String × String))
    (h : (hs.map Prod.fst).Nodup) : pyDict hs = hs := by
  induction hs with
  | nil => rfl
  | cons p rest ih =>
    obtain ⟨k, v⟩ := p
    simp only [List.map_cons, List.nodup_cons] at h
    rw [pyDict, ih h.2]
    congr 1
    apply List.filter_eq_self.mpr
    intro q hq
    simp only [ne_eq, decide_eq_true_eq]
    exact fun hqe => h.1 (hqe ▸ List.mem_map_of_mem Prod.fst hq)

/-- `init_headers` is the identity on lowercase-named mappings that
already carry a `content-length` (or whose body is empty). -/
theorem init_headers_eq_self (hs : List (String × String)) (body : List Nat)
    (hlow : ∀ p ∈ hs, strLower p.1 = p.1)
    (hcl : (hs.map Prod.fst).contains "content-length" = true ∨ body = []) :
    init_headers hs body = hs := by
  unfold init_headers
  have hid : ∀ p ∈ hs, (fun p : String × String => (strLower p.1, p.2)) p = p := by
    intro p hp
    show (strLower p.1, p.2) = p
    rw [hlow p hp]
  have hraw : hs.map (fun p => (strLower p.1, p.2)) = hs := by
    rw [List.map_congr_left hid]
    exact List.map_id' hs
  rw [hraw]
  rcases hcl with hcl | hcl
  · rw [if_pos (by rw [hcl]; rfl)]
  · rw [if_pos (by rw [hcl]; simp)]

/-- C3 counterexample: a response whose headers name no
`content-length` does not round-trip exactly — the rebuilt response
gains a `content-length: 3` entry from the starlette constructor. -/
theorem deserialize_serialize_adds_content_length :
    deserialize_response (serialize_response
        ⟨200, [("content-type", "text/plain"), ("x-bin", "1")], [255, 0, 72]⟩) =
      ⟨200, [("content-type", "text/plain"), ("x-bin", "1"), ("content-length", "3")],
        [255, 0, 72]⟩ ∧
    deserialize_response (serialize_response
        ⟨200, [("content-type", "text/plain"), ("x-bin", "1")], [255, 0, 72]⟩) ≠
      ⟨200, [("content-type", "text/plain"), ("x-bin", "1")], [255, 0, 72]⟩ :=
  ⟨rfl, by decide⟩

/-- C3 (corrected): `deserialize_response (serialize_response R)`
always reproduces the status code and the body bytes exactly (any
status, any bytes including non-UTF8); its header map is
`init_headers` of `dict(R.headers)` — so it reproduces R's header map
exactly exactly when the names are distinct, already lowercase, and
either include `content-length` or the body is empty. -/
theorem deserialize_serialize_response (r : Response)
    (hbody : ∀ b ∈ r.body, b < 256) :
    (deserialize_response (serialize_response r)).status_code = r.status_code ∧
    (deserialize_response (serialize_response r)).body = r.body ∧
    (deserialize_response (serialize_response r)).headers =
      init_headers (pyDict r.headers) r.body ∧
    ((r.headers.map Prod.fst).Nodup →
      (∀ p ∈ r.headers, strLower p.1 = p.1) →
      ((r.headers.map Prod.fst).contains "content-length" = true ∨ r.body = []) →
      deserialize_response (serialize_response r) = r) := by
  obtain ⟨status, headers, body⟩ := r
  have hb : json_string_to_bytes (bytes_to_json_string body) = body := by
    unfold json_string_to_bytes bytes_to_json_string decodebytes
    rw [filterMap_decode_encodebytes _ hbody]
    exact b64DecodeQuads_flat_chunks _ hbody
  refine ⟨rfl, ?_, ?_, ?_⟩
  · show json_string_to_bytes (bytes_to_json_string body) = body
    exact hb
  · show init_headers (pyDict headers) (json_string_to_bytes (bytes_to_json_string body)) =
      init_headers (pyDict headers) body
    rw [hb]
  · intro hkeys hlow hcl
    show (⟨status, init_headers (pyDict headers)
        (json_string_to_bytes (bytes_to_json_string body)),
        json_string_to_bytes (bytes_to_json_string body)⟩ : Response) =
      ⟨status, headers, body⟩
    rw [hb, pyDict_eq_self _ hkeys, init_headers_eq_self headers body hlow hcl]

/-- Witness for C3's corrected exactness at a response that already
carries a `content-length` and a non-UTF8 body byte. -/
theorem deserialize_serialize_response_witness :
    deserialize_response (serialize_response
        ⟨200, [("content-type", "text/plain"), ("content-length", "3")], [255, 0, 72]⟩) =
      ⟨200, [("content-type", "text/plain"), ("content-length", "3")], [255, 0, 72]⟩ :=
  (deserialize_serialize_response
      ⟨200, [("content-type", "text/plain"), ("content-length", "3")], [255, 0, 72]⟩
      (by decide)).2.2.2 (by decide) (by decide) (by decide)

/-! ## C4 — the max-age merge takes the minimum -/

/-- Witness for C7: a 404 response is rejected. -/
theorem store_in_cache_not_cachable_rules_witness :
    (store_in_cache wCtx ⟨404, [], []⟩ wReqGet []).1 = .error .responseNotCachable :=
  (store_in_cache_not_cachable_rules wCtx ⟨404, [], []⟩ wReqGet []).1.mpr
    (Or.inl (by decide))

/-- Lookup after a dict update. -/
theorem alLookup_alSet (cc : CCMap) (k : List Char) (v : PyVal) (k' : List Char) :
    alLookup (alSet cc k v) k' = if k' = k then some v else alLookup cc k' := by
  induction cc with
  | nil =>
    simp only [alSet, alLookup]
    by_cases h : k' = k
    · subst h; simp
    · rw [if_neg (fun hh => h hh.symm), if_neg h]
  | cons p rest ih =>
    obtain ⟨k0, v0⟩ := p
    simp only [alSet]
    by_cases h0 : k0 = k
    · subst h0
      rw [if_pos rfl]
      simp only [alLookup]
      by_cases h : k0 = k'
      · subst h; simp
      · rw [if_neg h, if_neg (fun hh => h hh.symm), if_neg h]
    · rw [if_neg h0]
      simp only [alLookup]
      by_cases h : k0 = k'
      · have hne : ¬ k' = k := fun hh => h0 (h.trans hh)
        rw [if_pos h, if_neg hne, if_pos h]
      · rw [if_neg h, if_neg h, ih]

/-- The last override targeting a directive name (after hyphenation). -/
def lastKw (kw : Kwargs) (k : List Char) : Option PyVal :=
  ((kw.filter (fun p => hyphenate p.1 = k)).getLast?).map Prod.snd

/-- The merge loop gives a directive the last override value targeting
it, or leaves the parsed value. -/
theorem alLookup_mergeKw (cc : CCMap) (kw : Kwargs) (k : List Char) :
    alLookup (mergeKw cc kw) k = (lastKw kw k).or (alLookup cc k) := by
  induction kw generalizing cc with
  | nil => simp [mergeKw, lastKw]
  | cons p rest ih =>
    have hstep : mergeKw cc (p :: rest) = mergeKw (alSet cc (hyphenate p.1) p.2) rest := rfl
    rw [hstep, ih]
    by_cases hp : hyphenate p.1 = k
    · have hfil : (p :: rest).filter (fun q => decide (hyphenate q.1 = k)) =
          p :: rest.filter (fun q => decide (hyphenate q.1 = k)) := by
        simp [List.filter_cons, hp]
      rw [lastKw, lastKw, hfil]
      cases hrest : rest.filter (fun q => decide (hyphenate q.1 = k)) with
      | nil =>
        simp only [List.getLast?_singleton, Option.map_some]
        rw [alLookup_alSet, if_pos hp.symm]
        cases hl : ((List.filter (fun q => decide (hyphenate q.1 = k)) rest).getLast?) with
        | none => simp
        | some q => rw [hrest] at hl; exact absurd hl (by simp)
      | cons q qs =>
        rw [← hrest]
        have : ((p :: rest.filter (fun q => decide (hyphenate q.1 = k))).getLast?) =
            ((rest.filter (fun q => decide (hyphenate q.1 = k))).getLast?) := by
          rw [hrest]
          simp [List.getLast?_cons_cons]
        rw [this]
        cases hl : ((rest.filter (fun q => decide (hyphenate q.1 = k))).getLast?) with
        | none => rw [hrest] at hl; exact absurd hl (by simp)
        | some q' => simp
    · have hfil : (p :: rest).filter (fun q => decide (hyphenate q.1 = k)) =
          rest.filter (fun q => decide (hyphenate q.1 = k)) := by
        simp [List.filter_cons, hp]
      rw [lastKw, lastKw, hfil, alLookup_alSet, if_neg (fun h => hp h.symm)]

/-- The Python `min` on an integer override is the integer minimum. -/
theorem pyMinVal_pint (n m : Int) :
    pyMinVal n (.pint m) = some (.pint (min n m)) := by
  by_cases h : n ≤ m <;> simp [pyMinVal, numOfVal, h, min_def]

/-- Replacing the unique `max_age` override keeps it the unique override
targeting `max-age`. -/
theorem filter_hyph_alSet_max_age (kw : Kwargs) (w : PyVal) (v : PyVal)
    (hone : kw.filter (fun p => decide (hyphenate p.1 = "max-age".data)) =
      [("max_age".data, w)]) :
    (alSet kw "max_age".data v).filter
        (fun p => decide (hyphenate p.1 = "max-age".data)) =
      [("max_age".data, v)] := by
  induction kw with
  | nil => simp at hone
  | cons p rest ih =>
    obtain ⟨k0, v0⟩ := p
    by_cases hp : hyphenate k0 = "max-age".data
    · rw [List.filter_cons, if_pos (by simpa using hp)] at hone
      have hcons := List.cons_eq_cons.mp hone
      have hk0 : k0 = "max_age".data := congrArg Prod.fst hcons.1
      subst hk0
      simp only [alSet, if_pos]
      rw [List.filter_cons, if_pos (by simpa using hp), hcons.2]
    · rw [List.filter_cons, if_neg (by simpa using hp)] at hone
      have hk0 : k0 ≠ "max_age".data := by
        intro h
        subst h
        exact hp (by decide)
      rw [alSet, if_neg hk0, List.filter_cons, if_neg (by simpa using hp)]
      exact ih hone

/-- C4: when the existing `Cache-Control` value parses to a `max-age`
directive with integer value `n` and the overrides carry an integer
`max_age = m` (the only override targeting `max-age`), the merged
directive map — which `patch_cache_control` serializes into the
resulting header — carries `max-age = min n m`, which never widens
freshness beyond either input. -/
theorem patch_cache_control_max_age_min (existing : List Char) (kw : Kwargs)
    (n m : Int) (ev : PyVal)
    (hev : alLookup (ccOfFields (parseHttpListCore existing)) "max-age".data =
      some ev)
    (hn : pyIntOfVal ev = some n)
    (hkw : alLookup kw "max_age".data = some (.pint m))
    (hone : kw.filter (fun p => decide (hyphenate p.1 = "max-age".data)) =
      [("max_age".data, .pint m)])
    (hpub : alLookup kw "public".data = none)
    (hpriv : alLookup kw "private".data = none) :
    ∃ cc, patchCCMap existing kw = .ok cc ∧
      alLookup cc "max-age".data = some (.pint (min n m)) ∧
      min n m ≤ n ∧ min n m ≤ m := by
  refine ⟨mergeKw (ccOfFields (parseHttpListCore existing))
      (alSet kw "max_age".data (.pint (min n m))), ?_, ?_,
    min_le_left n m, min_le_right n m⟩
  · simp only [patchCCMap, adjustMaxAge, hev, hkw, hn, pyMinVal_pint,
      Option.map_some, hpub, hpriv, Option.isSome_none, Bool.false_eq_true,
      if_false]
    rfl
  · rw [alLookup_mergeKw, lastKw,
      filter_hyph_alSet_max_age kw (.pint m) (.pint (min n m)) hone]
    simp

/-- Witness for C4: existing `max-age=60` with override `max_age=30`. -/
theorem patch_cache_control_max_age_min_witness :
    ∃ cc, patchCCMap "max-age=60".data [("max_age".data, .pint 30)] = .ok cc ∧
      alLookup cc "max-age".data = some (.pint (min 60 30)) ∧
      min (60 : Int) 30 ≤ 60 ∧ min (60 : Int) 30 ≤ 30 :=
  patch_cache_control_max_age_min "max-age=60".data [("max_age".data, .pint 30)]
    60 30 (.pstr "60".data) (by decide) (by decide) (by decide) (by decide)
    (by decide) (by decide)

/-! ## C8 — a `False` override removes the directive; an empty merge
removes the header -/

/-- Dict removal. -/
def alErase (cc : CCMap) (k : List Char) : CCMap :=
  cc.filter (fun p => p.1 ≠ k)

/-- Setting a directive to `False` serializes exactly like removing it
from the map (maps built by the merge have distinct names). -/
theorem renderDirectives_alSet_false (cc : CCMap) (k : List Char)
    (h : (cc.map Prod.fst).Nodup) :
    renderDirectives (alSet cc k (.pbool false)) =
      renderDirectives (alErase cc k) := by
  induction cc with
  | nil => rfl
  | cons p rest ih =>
    obtain ⟨k0, v0⟩ := p
    simp only [List.map_cons, List.nodup_cons] at h
    by_cases h0 : k0 = k
    · subst h0
      have hset : alSet ((k0, v0) :: rest) k0 (.pbool false) =
          (k0, .pbool false) :: rest := by simp [alSet]
      have herase : alErase ((k0, v0) :: rest) k0 =
          rest.filter (fun p => p.1 ≠ k0) := by simp [alErase, List.filter_cons]
      rw [hset, herase, List.filter_eq_self.mpr
        (fun q hq => by
          simp only [ne_eq, decide_eq_true_eq]
          exact fun hqe => h.1 (hqe ▸ List.mem_map_of_mem Prod.fst hq))]
      simp [renderDirectives, List.filterMap_cons, renderDirective]
    · have hset : alSet ((k0, v0) :: rest) k (.pbool false) =
          (k0, v0) :: alSet rest k (.pbool false) := by simp [alSet, h0]
      have herase : alErase ((k0, v0) :: rest) k = (k0, v0) :: alErase rest k := by
        simp [alErase, List.filter_cons, h0]
      rw [hset, herase]
      have ih' := ih h.2
      simp only [renderDirectives, List.filterMap_cons] at ih' ⊢
      rw [ih']

/-- The header a delete removed cannot be found. -/
theorem headersGet_headersDel (hs : List (String × String)) (k : String) :
    headersGet (headersDel hs k) k = none := by
  unfold headersGet headersDel
  have hnone : List.find? (fun p => p.1 == strLower k)
      (hs.filter (fun p => decide (p.1 ≠ strLower k))) = none := by
    apply List.find?_eq_none.mpr
    intro p hp
    have hmem := List.of_mem_filter hp
    simp only [ne_eq, decide_eq_true_eq] at hmem
    simpa using hmem
  rw [hnone]
  rfl

/-- When the merged map serializes to nothing, `patch_cache_control`
deletes the `Cache-Control` header rather than setting an empty value. -/
theorem patch_cache_control_empty_removes (hs : List (String × String))
    (kw : Kwargs) (cc : CCMap)
    (hok : patchCCMap (((headersGet hs "Cache-Control").map String.data).getD [])
      kw = .ok cc)
    (hempty : renderDirectives cc = []) :
    patch_cache_control hs kw = .ok (headersDel hs "Cache-Control") := by
  unfold patch_cache_control patchCCValue
  rw [hok]
  dsimp only
  rw [hempty]
  rfl

/-- C8: a boolean `False` override removes the directive from the merged
serialization, and when the merged map serializes to an empty string the
`Cache-Control` header is removed entirely rather than set empty; in
particular, existing `max-stale=60` with override `{max_stale: False}`
leaves a header set with no `Cache-Control` header at all. -/
theorem patch_cache_control_false_removal :
    (∀ (cc : CCMap) (k : List Char), (cc.map Prod.fst).Nodup →
        renderDirectives (alSet cc k (.pbool false)) =
          renderDirectives (alErase cc k)) ∧
      (∀ (hs : List (String × String)) (kw : Kwargs) (cc : CCMap),
        patchCCMap (((headersGet hs "Cache-Control").map String.data).getD [])
            kw = .ok cc →
        renderDirectives cc = [] →
        patch_cache_control hs kw = .ok (headersDel hs "Cache-Control") ∧
          headersGet (headersDel hs "Cache-Control") "Cache-Control" = none) ∧
      patch_cache_control [("cache-control", "max-stale=60")]
          [("max_stale".data, .pbool false)] = .ok [] :=
  ⟨fun cc k h => renderDirectives_alSet_false cc k h,
   fun hs kw cc hok hempty =>
     ⟨patch_cache_control_empty_removes hs kw cc hok hempty,
      headersGet_headersDel hs "Cache-Control"⟩,
   rfl⟩

/-- Witness for C8 at a concrete header set. -/
theorem patch_cache_control_false_removal_witness :
    patch_cache_control [("cache-control", "a=1")] [("a".data, .pbool false)] =
        .ok (headersDel [("cache-control", "a=1")] "Cache-Control") ∧
      headersGet (headersDel [("cache-control", "a=1")] "Cache-Control")
        "Cache-Control" = none :=
  patch_cache_control_false_removal.2.1 [("cache-control", "a=1")]
    [("a".data, .pbool false)] [("a".data, .pbool false)] rfl rfl

/-! ## C9 — idempotence of `patch_cache_control`

### Scanner analysis

`phlStep` either appends the character to the current part (with a new
quote/escape state), swallows a backslash setting the escape flag, or
splits off the current part.  `classify` names which of the three
happens, as a function of the scanner state and the character. -/

/-- The effect of one scanner step. -/
inductive StepKind
  | app (q e : Bool)
  | esc
  | split
  deriving DecidableEq, Repr

/-- Which effect `phlStep` has for a given state and character. -/
def classify (q e : Bool) (c : Char) : StepKind :=
  if e then .app q false
  else if q then
    if c = '\\' then .esc
    else if c = '"' then .app false false
    else .app true false
  else if c = ',' then .split
  else if c = '"' then .app true false
  else .app false false

/-- `phlStep`, described through `classify`. -/
theorem phlStep_classify (st : PState) (c : Char) :
    phlStep st c =
      match classify st.quote st.escape c with
      | .app q e => ⟨st.res, st.part ++ [c], q, e⟩
      | .esc => ⟨st.res, st.part, st.quote, true⟩
      | .split => ⟨st.res ++ [st.part], [], st.quote, st.escape⟩ := by
  obtain ⟨R, p, q, e⟩ := st
  simp only [phlStep, classify]
  by_cases he : e <;> by_cases hq : q <;> by_cases hc1 : c = '\\' <;>
    by_cases hc2 : c = '"' <;> by_cases hc3 : c = ',' <;> simp_all

/-- Prefixing the initial residue and part commutes with scanning: the
first emitted part absorbs the initial part, later ones are untouched. -/
def shiftRes (R : List (List Char)) (p : List Char) (st : PState) : PState :=
  match st.res with
  | [] => ⟨R, p ++ st.part, st.quote, st.escape⟩
  | r :: rs => ⟨R ++ [p ++ r] ++ rs, st.part, st.quote, st.escape⟩

/-- The scanner from an arbitrary residue/part is the scanner from the
empty ones, shifted. -/
theorem phlFold_shift (s : List Char) (R : List (List Char)) (p : List Char)
    (q e : Bool) :
    phlFold ⟨R, p, q, e⟩ s = shiftRes R p (phlFold ⟨[], [], q, e⟩ s) := by
  induction s generalizing R p q e with
  | nil => simp [phlFold, shiftRes]
  | cons c s ih =>
    show phlFold (phlStep ⟨R, p, q, e⟩ c) s =
      shiftRes R p (phlFold (phlStep ⟨[], [], q, e⟩ c) s)
    rw [phlStep_classify, phlStep_classify]
    cases hcl : classify q e c with
    | app q1 e1 =>
      dsimp only
      simp only [List.nil_append]
      rw [ih R (p ++ [c]) q1 e1, ih [] [c] q1 e1]
      cases hF : phlFold ⟨[], [], q1, e1⟩ s with
      | mk res2 p2 q2 e2 =>
        cases res2 <;> simp [shiftRes]
    | esc =>
      dsimp only
      rw [ih R p q true]
    | split =>
      dsimp only
      simp only [List.nil_append]
      rw [ih (R ++ [p]) [] q e, ih [[]] [] q e]
      cases hF : phlFold ⟨[], [], q, e⟩ s with
      | mk res2 p2 q2 e2 =>
        cases res2 <;> simp [shiftRes]

/-- A part replays from the fresh state to itself: scanning it splits
nothing, accumulates it verbatim and ends outside quotes. -/
def selfParses (d : List Char) : Prop :=
  phlFold phlInit d = ⟨[], d, false, false⟩

/-- No backslash characters (the scanner then never sets `escape`). -/
def noBS (d : List Char) : Prop := ∀ c ∈ d, c ≠ '\\'

theorem classify_esc_char (q e : Bool) (c : Char) (h : classify q e c = .esc) :
    c = '\\' := by
  unfold classify at h
  split_ifs at h <;> simp_all

theorem classify_app_e (q : Bool) (c : Char) (q1 e1 : Bool)
    (h : classify q false c = .app q1 e1) : e1 = false := by
  unfold classify at h
  split_ifs at h <;> simp_all

theorem classify_split_state (q e : Bool) (c : Char)
    (h : classify q e c = .split) : q = false ∧ e = false ∧ c = ',' := by
  unfold classify at h
  split_ifs at h <;> simp_all

/-- Scanning one more character. -/
theorem phlFold_snoc (st : PState) (s : List Char) (c : Char) :
    phlFold st (s ++ [c]) = phlStep (phlFold st s) c := by
  simp [phlFold, List.foldl_append]

/-- Scanning a concatenation. -/
theorem phlFold_append (st : PState) (s t : List Char) :
    phlFold st (s ++ t) = phlFold (phlFold st s) t := by
  simp [phlFold, List.foldl_append]

/-- A whitespace character is not special to the scanner. -/
theorem pyIsSpace_ne (c : Char) (h : pyIsSpace c = true) :
    c ≠ ',' ∧ c ≠ '"' ∧ c ≠ '\\' := by
  simp only [pyIsSpace, Bool.or_eq_true, decide_eq_true_eq] at h
  rcases h with ((((h | h) | h) | h) | h) | h <;> subst h <;> exact ⟨by decide, by decide, by decide⟩

/-- Whitespace only grows the current part; state is untouched. -/
theorem phlFold_spaces (ws : List Char) (hws : ∀ c ∈ ws, pyIsSpace c = true)
    (R : List (List Char)) (pp : List Char) (q : Bool) :
    phlFold ⟨R, pp, q, false⟩ ws = ⟨R, pp ++ ws, q, false⟩ := by
  induction ws generalizing pp with
  | nil => simp [phlFold]
  | cons c ws ih =>
    obtain ⟨h1, h2, h3⟩ := pyIsSpace_ne c (hws c (by simp))
    have hcl : classify q false c = .app q false := by
      unfold classify
      cases q <;> simp [h1, h2, h3]
    show phlFold (phlStep ⟨R, pp, q, false⟩ c) ws = _
    rw [phlStep_classify]
    dsimp only
    rw [hcl]
    dsimp only
    rw [ih (fun x hx => hws x (by simp [hx]))]
    simp

/-- The scanner invariant on backslash-free input: the escape flag stays
down, every emitted part replays to itself and is made of input
characters, and the current part replays to the current quote state. -/
theorem phl_invariant (s : List Char) (hnb : noBS s) :
    (phlFold phlInit s).escape = false ∧
      phlFold phlInit (phlFold phlInit s).part =
        ⟨[], (phlFold phlInit s).part, (phlFold phlInit s).quote, false⟩ ∧
      (∀ p ∈ (phlFold phlInit s).res, selfParses p ∧ noBS p) ∧
      noBS (phlFold phlInit s).part := by
  induction s using List.reverseRecOn with
  | nil => exact ⟨rfl, rfl, by simp [phlFold, phlInit], by simp [phlFold, phlInit, noBS]⟩
  | append_singleton s c ih =>
    have hnb' : noBS s := fun x hx => hnb x (List.mem_append_left _ hx)
    have hc : c ≠ '\\' := hnb c (List.mem_append_right _ (by simp))
    obtain ⟨he, hreplay, hres, hpart⟩ := ih hnb'
    rw [phlFold_snoc, phlStep_classify, he]
    cases hcl : classify (phlFold phlInit s).quote false c with
    | esc => exact absurd (classify_esc_char _ _ _ hcl) hc
    | app q1 e1 =>
      have he1 : e1 = false := classify_app_e _ _ _ _ hcl
      subst he1
      refine ⟨rfl, ?_, ?_, ?_⟩
      · dsimp only
        rw [phlFold_snoc, hreplay, phlStep_classify]
        dsimp only
        rw [hcl]
      · dsimp only
        exact hres
      · dsimp only
        intro x hx
        rcases List.mem_append.mp hx with h | h
        · exact hpart x h
        · simpa using (by rw [List.mem_singleton.mp h]; exact hc)
    | split =>
      obtain ⟨hq, _, _⟩ := classify_split_state _ _ _ hcl
      refine ⟨rfl, ?_, ?_, by simp [noBS]⟩
      · dsimp only
        rw [hq]
        rfl
      dsimp only
      intro p hp
      rcases List.mem_append.mp hp with h | h
      · exact hres p h
      · rw [List.mem_singleton.mp h]
        refine ⟨?_, hpart⟩
        unfold selfParses
        rw [hreplay, hq]

/-! ### `pyStrip` facts -/

/-- `dropWhile` jumps over a final element failing the predicate. -/
theorem dropWhile_append_single {α : Type} (p : α → Bool) (ys : List α) (x : α)
    (hx : p x = false) :
    (ys ++ [x]).dropWhile p = ys.dropWhile p ++ [x] := by
  induction ys with
  | nil => simp [List.dropWhile, hx]
  | cons y ys ih =>
    by_cases hy : p y <;> simp [List.dropWhile, hy, ih]

/-- The head surviving a `dropWhile` fails the predicate. -/
theorem dropWhile_head_false {α : Type} (p : α → Bool) (l : List α) (x : α)
    (h : (l.dropWhile p).head? = some x) : p x = false := by
  induction l with
  | nil => simp [List.dropWhile] at h
  | cons y ys ih =>
    by_cases hy : p y
    · rw [List.dropWhile_cons_of_pos hy] at h
      exact ih h
    · rw [List.dropWhile_cons_of_neg hy] at h
      simp only [List.head?_cons, Option.some_inj] at h
      subst h
      simpa using hy

/-- A list whose head fails the predicate is untouched by `dropWhile`. -/
theorem dropWhile_of_head_false {α : Type} (p : α → Bool) (l : List α)
    (h : ∀ x, l.head? = some x → p x = false) : l.dropWhile p = l := by
  cases l with
  | nil => rfl
  | cons y ys => rw [List.dropWhile_cons_of_neg (by simp [h y rfl])]

/-- `dropWhile` keeps the last element when its result is non-empty. -/
theorem dropWhile_getLast {α : Type} (p : α → Bool) (l : List α)
    (h : l.dropWhile p ≠ []) : (l.dropWhile p).getLast? = l.getLast? := by
  induction l with
  | nil => simp at h
  | cons y ys ih =>
    by_cases hy : p y
    · rw [List.dropWhile_cons_of_pos hy] at h ⊢
      have hys : ys ≠ [] := by
        intro he
        rw [he] at h
        simp at h
      cases ys with
      | nil => exact absurd rfl hys
      | cons z zs => rw [ih h, List.getLast?_cons_cons]
    · rw [List.dropWhile_cons_of_neg hy]

/-- The head of a stripped list is not whitespace. -/
theorem pyStrip_head_false (l : List Char) :
    ∀ x, (pyStrip l).head? = some x → pyIsSpace x = false := by
  intro x hx
  unfold pyStrip at hx
  rw [List.head?_reverse] at hx
  have hne : (List.dropWhile pyIsSpace (List.dropWhile pyIsSpace l).reverse) ≠ [] := by
    intro he
    rw [he] at hx
    simp at hx
  rw [dropWhile_getLast _ _ hne, List.getLast?_reverse] at hx
  exact dropWhile_head_false _ _ _ hx

/-- The last element of a stripped list is not whitespace. -/
theorem pyStrip_rev_head_false (l : List Char) :
    ∀ x, (pyStrip l).reverse.head? = some x → pyIsSpace x = false := by
  intro x hx
  unfold pyStrip at hx
  rw [List.reverse_reverse] at hx
  exact dropWhile_head_false _ _ _ hx

/-- Stripping is idempotent. -/
theorem pyStrip_idem (l : List Char) : pyStrip (pyStrip l) = pyStrip l := by
  show (((pyStrip l).dropWhile pyIsSpace).reverse.dropWhile pyIsSpace).reverse = pyStrip l
  rw [dropWhile_of_head_false _ _ (pyStrip_head_false l),
    dropWhile_of_head_false _ _ (pyStrip_rev_head_false l),
    List.reverse_reverse]

/-- Stripping keeps only characters of the original list. -/
theorem pyStrip_subset (l : List Char) : ∀ c ∈ pyStrip l, c ∈ l := by
  intro c hc
  unfold pyStrip at hc
  rw [List.mem_reverse] at hc
  have h1 := (List.dropWhile_sublist (l := (l.dropWhile pyIsSpace).reverse)
    (p := pyIsSpace)).subset hc
  rw [List.mem_reverse] at h1
  exact (List.dropWhile_sublist (l := l) (p := pyIsSpace)).subset h1

/-- A space-free list is already stripped. -/
theorem pyStrip_of_no_space (l : List Char)
    (h : ∀ c ∈ l, pyIsSpace c = false) : pyStrip l = l := by
  unfold pyStrip
  rw [dropWhile_of_head_false _ _ (fun x hx => h x (List.mem_of_mem_head? hx)),
    dropWhile_of_head_false _ _ (fun x hx => h x (by
      have := List.mem_of_mem_head? hx
      rwa [List.mem_reverse] at this)),
    List.reverse_reverse]

/-- A leading space vanishes under strip. -/
theorem pyStrip_cons_space (d : List Char) : pyStrip (' ' :: d) = pyStrip d := by
  unfold pyStrip
  rw [List.dropWhile_cons_of_pos (by decide)]

/-- A stripped self-parsing backslash-free part self-parses. -/
theorem selfParses_strip (p : List Char) (hs : selfParses p) (hnb : noBS p) :
    selfParses (pyStrip p) := by
  have hsplit : p = p.takeWhile pyIsSpace ++ p.dropWhile pyIsSpace :=
    (List.takeWhile_append_dropWhile (p := pyIsSpace) (l := p)).symm
  set ws := p.takeWhile pyIsSpace with hws
  set rest := p.dropWhile pyIsSpace with hrest
  have hwssp : ∀ c ∈ ws, pyIsSpace c = true :=
    fun c hc => List.mem_takeWhile_imp hc
  -- leading spaces off: rest self-parses
  have hrs : selfParses rest := by
    unfold selfParses at hs ⊢
    rw [hsplit, phlFold_append] at hs
    have hws0 : phlFold phlInit ws = ⟨[], ws, false, false⟩ := by
      have := phlFold_spaces ws hwssp [] [] false
      simpa [phlInit] using this
    rw [hws0, phlFold_shift] at hs
    cases hF : phlFold ⟨[], [], false, false⟩ rest with
    | mk res2 p2 q2 e2 =>
      rw [hF] at hs
      cases res2 with
      | nil =>
        simp only [shiftRes] at hs
        have h2 : ws ++ p2 = ws ++ rest := congrArg PState.part hs
        have h3 : q2 = false := congrArg PState.quote hs
        have h4 : e2 = false := congrArg PState.escape hs
        have hp2 : p2 = rest := List.append_cancel_left h2
        rw [show phlInit = (⟨[], [], false, false⟩ : PState) from rfl, hF, hp2, h3, h4]
      | cons r rs =>
        simp only [shiftRes, List.nil_append] at hs
        have : (ws ++ r) :: rs = [] := congrArg PState.res hs
        exact absurd this (by simp)
  -- trailing spaces off
  have hnbrest : noBS rest := fun c hc =>
    hnb c ((List.dropWhile_sublist (l := p) (p := pyIsSpace)).subset hc)
  have hstrip : pyStrip p = (rest.reverse.dropWhile pyIsSpace).reverse := by
    unfold pyStrip
    rfl
  set r := (rest.reverse.dropWhile pyIsSpace).reverse with hr
  set ws2 := (rest.reverse.takeWhile pyIsSpace).reverse with hws2
  have hrsplit : rest = r ++ ws2 := by
    have hsp : rest.reverse = rest.reverse.takeWhile pyIsSpace ++ rest.reverse.dropWhile pyIsSpace :=
      (List.takeWhile_append_dropWhile (p := pyIsSpace) (l := rest.reverse)).symm
    calc rest = rest.reverse.reverse := by rw [List.reverse_reverse]
    _ = (rest.reverse.takeWhile pyIsSpace ++ rest.reverse.dropWhile pyIsSpace).reverse := by
        rw [← hsp]
    _ = r ++ ws2 := by rw [List.reverse_append]
  have hws2sp : ∀ c ∈ ws2, pyIsSpace c = true := by
    intro c hc
    rw [hws2, List.mem_reverse] at hc
    exact List.mem_takeWhile_imp hc
  have hnbr : noBS r := fun c hc => hnbrest c (hrsplit ▸ List.mem_append_left _ hc)
  have hge : (phlFold phlInit r).escape = false := (phl_invariant r hnbr).1
  unfold selfParses at hrs ⊢
  rw [hrsplit, phlFold_append] at hrs
  cases hG : phlFold phlInit r with
  | mk gr gp gq ge =>
    have hge' : ge = false := by rw [hG] at hge; exact hge
    subst hge'
    rw [hG, phlFold_spaces ws2 hws2sp gr gp gq] at hrs
    have h1 : gr = [] := congrArg PState.res hrs
    have h2 : gp ++ ws2 = r ++ ws2 := congrArg PState.part hrs
    have h3 : gq = false := congrArg PState.quote hrs
    have hgp : gp = r := List.append_cancel_right h2
    rw [hstrip, hG, h1, h3, hgp]

/-! ### `splitEq` facts -/

/-- `split("=")` never returns an empty list. -/
theorem splitEq_ne_nil (f : List Char) : splitEq f ≠ [] := by
  cases f with
  | nil => simp [splitEq]
  | cons c rest =>
    by_cases hc : c = '='
    · simp [splitEq, hc]
    · simp only [splitEq, if_neg hc]
      cases splitEq rest <;> simp

/-- A string without `'='` splits into itself alone. -/
theorem splitEq_no_eq (f : List Char) (h : ∀ c ∈ f, c ≠ '=') : splitEq f = [f] := by
  induction f with
  | nil => rfl
  | cons c rest ih =>
    have hc : ¬(c = '=') := h c (by simp)
    have hr := ih (fun x hx => h x (by simp [hx]))
    simp [splitEq, hc, hr]

/-- A single-part split means the string had no `'='` at all. -/
theorem splitEq_single (f b : List Char) (h : splitEq f = [b]) :
    f = b ∧ ∀ c ∈ b, c ≠ '=' := by
  induction f generalizing b with
  | nil =>
    simp only [splitEq, List.cons.injEq, and_true] at h
    exact ⟨h, by rw [← h]; simp⟩
  | cons c rest ih =>
    by_cases hc : c = '='
    · rw [show splitEq (c :: rest) = [] :: splitEq rest from by
        simp only [splitEq, if_pos hc]] at h
      simp only [List.cons.injEq] at h
      exact absurd h.2 (splitEq_ne_nil rest)
    · cases hsp : splitEq rest with
      | nil => exact absurd hsp (splitEq_ne_nil rest)
      | cons s ss =>
        simp only [splitEq, if_neg hc, hsp, List.cons.injEq] at h
        obtain ⟨hb, hss⟩ := h
        subst hss
        obtain ⟨h1, h2⟩ := ih s hsp
        refine ⟨by rw [h1, hb], ?_⟩
        intro x hx
        rw [← hb] at hx
        rcases List.mem_cons.mp hx with h | h
        · rw [h]; exact hc
        · exact h2 x h

/-- A two-part split recomposes the string around a unique `'='`. -/
theorem splitEq_pair (f a b : List Char) (h : splitEq f = [a, b]) :
    f = a ++ '=' :: b ∧ (∀ c ∈ a, c ≠ '=') ∧ (∀ c ∈ b, c ≠ '=') := by
  induction f generalizing a with
  | nil => simp [splitEq] at h
  | cons c rest ih =>
    by_cases hc : c = '='
    · rw [show splitEq (c :: rest) = [] :: splitEq rest from by
        simp only [splitEq, if_pos hc]] at h
      simp only [List.cons.injEq] at h
      obtain ⟨ha, hrest⟩ := h
      obtain ⟨h1, h2⟩ := splitEq_single rest b hrest
      subst h1
      refine ⟨?_, by rw [← ha]; simp, h2⟩
      rw [← ha, hc]
      rfl
    · cases hsp : splitEq rest with
      | nil => exact absurd hsp (splitEq_ne_nil rest)
      | cons s ss =>
        simp only [splitEq, if_neg hc, hsp, List.cons.injEq] at h
        obtain ⟨ha, hss⟩ := h
        rw [hss] at hsp
        obtain ⟨h1, h2, h3⟩ := ih s hsp
        refine ⟨?_, ?_, h3⟩
        · rw [← ha, h1]; rfl
        · intro x hx
          rw [← ha] at hx
          rcases List.mem_cons.mp hx with h | h
          · rw [h]; exact hc
          · exact h2 x h

/-- Recomposition in the other direction: a `'='` between two
`'='`-free halves splits into exactly those halves. -/
theorem splitEq_append_pair (a b : List Char) (ha : ∀ c ∈ a, c ≠ '=')
    (hb : ∀ c ∈ b, c ≠ '=') : splitEq (a ++ '=' :: b) = [a, b] := by
  induction a with
  | nil => simp [splitEq, splitEq_no_eq b hb]
  | cons c a' ih =>
    have hc : ¬(c = '=') := ha c (by simp)
    have h' := ih (fun x hx => ha x (by simp [hx]))
    simp [splitEq, hc, h']

/-! ### Decimal rendering round-trip -/

/-- `digitChar` keeps its argument below ten. -/
theorem digitChar_toNat (n : Nat) (h : n < 10) : (digitChar n).toNat = 48 + n := by
  interval_cases n <;> decide

/-- The digit characters read back as their value. -/
theorem digitVal_digitChar (n : Nat) (h : n < 10) : digitVal (digitChar n) = some n := by
  interval_cases n <;> decide

/-- Characters produced by `natCharsGo` are decimal digits. -/
theorem natCharsGo_digits (fuel : Nat) : ∀ (n : Nat), ∀ c ∈ natCharsGo fuel n,
    48 ≤ c.toNat ∧ c.toNat ≤ 57 := by
  induction fuel with
  | zero => intro n c hc; simp [natCharsGo] at hc
  | succ fuel ih =>
    intro n c hc
    unfold natCharsGo at hc
    by_cases h10 : n < 10
    · rw [if_pos h10] at hc
      rw [List.mem_singleton.mp hc, digitChar_toNat n h10]
      omega
    · rw [if_neg h10] at hc
      rcases List.mem_append.mp hc with h | h
      · exact ih (n / 10) c h
      · rw [List.mem_singleton.mp h, digitChar_toNat (n % 10) (Nat.mod_lt n (by omega))]
        omega

/-- One step of the fuel-driven digit rendering. -/
theorem natCharsGo_succ (fuel n : Nat) : natCharsGo (fuel + 1) n =
    if n < 10 then [digitChar n]
    else natCharsGo fuel (n / 10) ++ [digitChar (n % 10)] := rfl

/-- Any sufficient fuel computes the same digit string. -/
theorem natCharsGo_eq (n : Nat) : ∀ f, n < f → natCharsGo f n = natChars n := by
  induction n using Nat.strong_induction_on with
  | _ n ih =>
    intro f hf
    match f, hf with
    | f' + 1, hf =>
      show natCharsGo (f' + 1) n = natCharsGo (n + 1) n
      rw [natCharsGo_succ, natCharsGo_succ]
      by_cases h10 : n < 10
      · rw [if_pos h10, if_pos h10]
      · have hdiv : n / 10 < n := Nat.div_lt_self (by omega) (by omega)
        rw [if_neg h10, if_neg h10, ih (n / 10) hdiv f' (by omega),
          ih (n / 10) hdiv n (by omega)]

/-- The digit string is never empty. -/
theorem natChars_ne_nil (n : Nat) : natChars n ≠ [] := by
  show natCharsGo (n + 1) n ≠ []
  rw [natCharsGo_succ]
  by_cases h10 : n < 10
  · rw [if_pos h10]; simp
  · rw [if_neg h10]; simp

/-- Characters of `natChars` are decimal digits. -/
theorem natChars_digits (n : Nat) : ∀ c ∈ natChars n, 48 ≤ c.toNat ∧ c.toNat ≤ 57 :=
  natCharsGo_digits (n + 1) n

/-- Appending one digit multiplies the parsed value by ten. -/
theorem digitsVal_snoc (xs : List Char) (hx : ∀ x ∈ xs, x ≠ '_') (c : Char) (d : Nat)
    (hc : digitVal c = some d) :
    ∀ a, digitsVal (xs ++ [c]) (some a) = (digitsVal xs (some a)).map (fun m => m * 10 + d) := by
  have hcu : ¬(c = '_') := by
    intro h
    rw [h] at hc
    simp [digitVal] at hc
  induction xs with
  | nil =>
    intro a
    simp only [List.nil_append, digitsVal, if_neg hcu, hc]
    rfl
  | cons x xs ih =>
    intro a
    have hx0 : ¬(x = '_') := hx x (by simp)
    have hx' : ∀ y ∈ xs, y ≠ '_' := fun y hy => hx y (by simp [hy])
    show digitsVal (x :: (xs ++ [c])) (some a) =
      (digitsVal (x :: xs) (some a)).map (fun m => m * 10 + d)
    rw [digitsVal.eq_def]
    conv_rhs => rw [digitsVal.eq_def]
    simp only [if_neg hx0]
    cases hdx : digitVal x with
    | none => rfl
    | some dx => exact ih hx' (a * 10 + dx)

/-- The same, starting from an empty accumulator on a non-empty digit
string. -/
theorem digitsVal_snoc_none (xs : List Char) (hx : ∀ x ∈ xs, x ≠ '_')
    (hne : xs ≠ []) (c : Char) (d : Nat) (hc : digitVal c = some d) :
    digitsVal (xs ++ [c]) none = (digitsVal xs none).map (fun m => m * 10 + d) := by
  cases xs with
  | nil => exact absurd rfl hne
  | cons x xs =>
    have hx0 : ¬(x = '_') := hx x (by simp)
    have hx' : ∀ y ∈ xs, y ≠ '_' := fun y hy => hx y (by simp [hy])
    show digitsVal (x :: (xs ++ [c])) none =
      (digitsVal (x :: xs) none).map (fun m => m * 10 + d)
    rw [digitsVal.eq_def]
    conv_rhs => rw [digitsVal.eq_def]
    simp only [if_neg hx0]
    cases hdx : digitVal x with
    | none => rfl
    | some dx => exact digitsVal_snoc xs hx' c d hc dx

/-- No digit character is an underscore. -/
theorem natChars_no_us (n : Nat) : ∀ c ∈ natChars n, c ≠ '_' := by
  intro c hc h
  obtain ⟨h1, h2⟩ := natChars_digits n c hc
  rw [h] at h2
  exact absurd h2 (by decide)

/-- Parsing the rendered digits of a natural number recovers it. -/
theorem digitsVal_natChars (n : Nat) : digitsVal (natChars n) none = some n := by
  induction n using Nat.strong_induction_on with
  | _ n ih =>
    by_cases h10 : n < 10
    · have hn : natChars n = [digitChar n] := by
        show natCharsGo (n + 1) n = _
        rw [natCharsGo_succ, if_pos h10]
      have hne : ¬(digitChar n = '_') := natChars_no_us n (digitChar n) (by rw [hn]; simp)
      rw [hn]
      simp only [digitsVal, if_neg hne, digitVal_digitChar n h10]
    · have hdiv : n / 10 < n := Nat.div_lt_self (by omega) (by omega)
      have hrec : natChars n = natChars (n / 10) ++ [digitChar (n % 10)] := by
        show natCharsGo (n + 1) n = _
        rw [natCharsGo_succ, if_neg h10, natCharsGo_eq (n / 10) n (by omega)]
      rw [hrec, digitsVal_snoc_none (natChars (n / 10)) (natChars_no_us (n / 10))
        (natChars_ne_nil (n / 10)) _ _ (digitVal_digitChar (n % 10) (Nat.mod_lt n (by omega))),
        ih (n / 10) hdiv]
      simp only [Option.map]
      congr 1
      omega

/-- All characters of `intChars` are digits or a leading minus sign. -/
theorem intChars_chars (i : Int) : ∀ c ∈ intChars i,
    c.toNat = 45 ∨ (48 ≤ c.toNat ∧ c.toNat ≤ 57) := by
  intro c hc
  unfold intChars at hc
  by_cases hi : i < 0
  · rw [if_pos hi] at hc
    rcases List.mem_cons.mp hc with h | h
    · left; rw [h]; rfl
    · right; exact natChars_digits _ c h
  · rw [if_neg hi] at hc
    right; exact natChars_digits _ c hc

/-- Such characters are not Python whitespace. -/
theorem pyIsSpace_false_of_toNat (c : Char) (h : 43 ≤ c.toNat) (h2 : c.toNat ≤ 61) :
    pyIsSpace c = false := by
  have w1 : c ≠ ' ' := by intro he; rw [he] at h; exact absurd h (by decide)
  have w2 : c ≠ '\t' := by intro he; rw [he] at h; exact absurd h (by decide)
  have w3 : c ≠ '\n' := by intro he; rw [he] at h; exact absurd h (by decide)
  have w4 : c ≠ '\r' := by intro he; rw [he] at h; exact absurd h (by decide)
  have w5 : c ≠ '\x0b' := by intro he; rw [he] at h; exact absurd h (by decide)
  have w6 : c ≠ '\x0c' := by intro he; rw [he] at h; exact absurd h (by decide)
  simp [pyIsSpace, w1, w2, w3, w4, w5, w6]

/-- The rendered integer contains no whitespace, so `strip` keeps it. -/
theorem pyStrip_intChars (i : Int) : pyStrip (intChars i) = intChars i := by
  apply pyStrip_of_no_space
  intro c hc
  rcases intChars_chars i c hc with h | h
  · exact pyIsSpace_false_of_toNat c (by omega) (by omega)
  · exact pyIsSpace_false_of_toNat c (by omega) (by omega)

/-- `int(str(i)) = i`: parsing a rendered integer recovers it. -/
theorem pyInt_intChars (i : Int) : pyInt (intChars i) = some i := by
  unfold pyInt
  simp only [pyStrip_intChars]
  by_cases hi : i < 0
  · have hrec : intChars i = '-' :: natChars i.natAbs := by
      unfold intChars
      rw [if_pos hi]
    rw [hrec]
    simp only [List.head?_cons, List.tail_cons, if_pos rfl, digitsVal_natChars]
    show Option.some (-(i.natAbs : Int)) = some i
    rw [show -(i.natAbs : Int) = i by omega]
  · have hrec : intChars i = natChars i.natAbs := by
      unfold intChars
      rw [if_neg hi]
    rw [hrec]
    cases hnc : natChars i.natAbs with
    | nil => exact absurd hnc (natChars_ne_nil _)
    | cons c cs =>
      have hd : 48 ≤ c.toNat ∧ c.toNat ≤ 57 := by
        have := natChars_digits i.natAbs c (by rw [hnc]; simp)
        exact this
      have hc1 : ¬(List.head? (c :: cs) = some '-') := by
        simp only [List.head?_cons, Option.some.injEq]
        intro he
        rw [he] at hd
        exact absurd hd.1 (by decide)
      have hc2 : ¬(List.head? (c :: cs) = some '+') := by
        simp only [List.head?_cons, Option.some.injEq]
        intro he
        rw [he] at hd
        exact absurd hd.1 (by decide)
      rw [if_neg hc1, if_neg hc2, ← hnc, digitsVal_natChars]
      show Option.some ((i.natAbs : Int)) = some i
      rw [show ((i.natAbs : Int)) = i by omega]

/-! ### Joining fields back and re-parsing -/

/-- The `", ".join` of a field list, structurally. -/
def joinComma : List (List Char) → List Char
  | [] => []
  | [d] => d
  | d :: rest => d ++ ',' :: ' ' :: joinComma rest

/-- `List.intercalate ", "` agrees with the structural join. -/
theorem intercalate_eq_joinComma (ds : List (List Char)) :
    List.intercalate ", ".data ds = joinComma ds := by
  induction ds with
  | nil => rfl
  | cons d rest ih =>
    cases rest with
    | nil => simp [List.intercalate, joinComma]
    | cons r rs =>
      show (List.intersperse ", ".data (d :: r :: rs)).flatten = joinComma (d :: r :: rs)
      rw [List.intersperse_cons_cons]
      show d ++ (", ".data ++ (List.intersperse ", ".data (r :: rs)).flatten) = _
      have ih' : (List.intersperse ", ".data (r :: rs)).flatten = joinComma (r :: rs) := ih
      rw [ih']
      rfl

/-- A string of plain characters (no comma, quote or backslash)
self-parses: the scanner just accumulates it. -/
theorem selfParses_of_plain (f : List Char)
    (h : ∀ c ∈ f, c ≠ ',' ∧ c ≠ '"' ∧ c ≠ '\\') : selfParses f := by
  induction f using List.reverseRecOn with
  | nil => rfl
  | append_singleton s c ih =>
    have hs := ih (fun x hx => h x (List.mem_append_left _ hx))
    obtain ⟨h1, h2, h3⟩ := h c (List.mem_append_right _ (by simp))
    unfold selfParses at hs ⊢
    rw [phlFold_snoc, hs]
    show phlStep ⟨[], s, false, false⟩ c = _
    unfold phlStep
    simp [h1, h2, h3]

/-- The default value of `getLastD` on a non-empty list is irrelevant:
it is a member. -/
theorem getLastD_mem {α : Type} (xs : List α) : ∀ (x a : α), (x :: xs).getLastD a ∈ x :: xs := by
  induction xs with
  | nil => intro x a; simp [List.getLastD]
  | cons y ys ih =>
    intro x a
    rw [show (x :: y :: ys).getLastD a = (y :: ys).getLastD x from by simp [List.getLastD]]
    exact List.mem_cons_of_mem x (ih y x)

/-- Dropping the last element and re-appending it restores the list. -/
theorem dropLast_getLastD {α : Type} (xs : List α) :
    ∀ (x a : α), (x :: xs).dropLast ++ [(x :: xs).getLastD a] = x :: xs := by
  induction xs with
  | nil => intro x a; simp [List.getLastD]
  | cons y ys ih =>
    intro x a
    rw [show (x :: y :: ys).getLastD a = (y :: ys).getLastD x from by simp [List.getLastD],
      show (x :: y :: ys).dropLast = x :: (y :: ys).dropLast from by simp]
    show x :: ((y :: ys).dropLast ++ [(y :: ys).getLastD x]) = _
    rw [ih y x]

/-- Scanner state after a comma-space join of self-parsing fields. -/
theorem joinComma_fold (rest : List (List Char)) : ∀ d : List Char, selfParses d →
    (∀ x ∈ rest, selfParses x) →
    phlFold phlInit (joinComma (d :: rest)) =
      ⟨if rest.isEmpty then [] else d :: (rest.dropLast.map (fun x => ' ' :: x)),
       if rest.isEmpty then d else ' ' :: rest.getLastD [], false, false⟩ := by
  induction rest with
  | nil =>
    intro d hd _
    simp only [List.isEmpty_nil, if_pos rfl]
    exact hd
  | cons r rs ih =>
    intro d hd hrest
    show phlFold phlInit (d ++ ',' :: ' ' :: joinComma (r :: rs)) = _
    rw [phlFold_append, hd]
    show phlFold (phlStep (phlStep ⟨[], d, false, false⟩ ',') ' ') (joinComma (r :: rs)) = _
    rw [show phlStep ⟨[], d, false, false⟩ ',' = ⟨[d], [], false, false⟩ from by
        unfold phlStep; simp,
      show phlStep (⟨[d], [], false, false⟩ : PState) ' ' = ⟨[d], [' '], false, false⟩ from by
        unfold phlStep; simp,
      phlFold_shift]
    have ihr := ih r (hrest r (by simp)) (fun x hx => hrest x (by simp [hx]))
    rw [show phlInit = (⟨[], [], false, false⟩ : PState) from rfl] at ihr
    rw [ihr]
    cases rs with
    | nil => rfl
    | cons r2 rs2 => rfl

/-- Parsing the comma-space join of stripped, self-parsing fields
recovers exactly those fields. -/
theorem parse_join (ds : List (List Char))
    (hsp : ∀ d ∈ ds, selfParses d) (hst : ∀ d ∈ ds, pyStrip d = d)
    (hone : ∀ d, ds = [d] → d ≠ []) :
    parseHttpListCore (List.intercalate ", ".data ds) = ds := by
  rw [intercalate_eq_joinComma]
  cases ds with
  | nil => rfl
  | cons d rest =>
    unfold parseHttpListCore
    rw [joinComma_fold rest d (hsp d (by simp)) (fun x hx => hsp x (by simp [hx]))]
    cases rest with
    | nil =>
      have hdne : d ≠ [] := hone d rfl
      have hie : d.isEmpty = false := by
        cases d with
        | nil => exact absurd rfl hdne
        | cons a b => rfl
      show List.map pyStrip (if d.isEmpty = true then [] else [] ++ [d]) = [d]
      rw [hie, if_neg (by simp), List.nil_append]
      simp only [List.map_cons, List.map_nil, List.cons.injEq, and_true]
      exact hst d (by simp)
    | cons r rs =>
      simp only [List.isEmpty_cons, if_neg (by simp : ¬((r :: rs).isEmpty = true))]
      show (if (' ' :: (r :: rs).getLastD []).isEmpty
          then d :: ((r :: rs).dropLast.map (fun x => ' ' :: x))
          else d :: ((r :: rs).dropLast.map (fun x => ' ' :: x)) ++ [' ' :: (r :: rs).getLastD []]).map
            pyStrip = d :: r :: rs
      rw [if_neg (by simp)]
      simp only [List.map_cons, List.map_append, List.map_map, List.map_cons, List.map_nil]
      rw [hst d (by simp)]
      have hmid : ∀ x ∈ (r :: rs).dropLast, (pyStrip ∘ fun y => ' ' :: y) x = x := by
        intro x hx
        have hxm : x ∈ r :: rs := (List.dropLast_sublist (r :: rs)).subset hx
        show pyStrip (' ' :: x) = x
        rw [pyStrip_cons_space, hst x (by simp [hxm])]
      rw [List.map_congr_left hmid,
        show List.map (fun a : List Char => a) (r :: rs).dropLast = (r :: rs).dropLast from
          List.map_id' _]
      have hlast : pyStrip (' ' :: (r :: rs).getLastD []) = (r :: rs).getLastD [] := by
        rw [pyStrip_cons_space]
        exact hst _ (List.mem_cons_of_mem d (getLastD_mem rs r []))
      rw [hlast, List.cons_append]
      rw [show (r :: rs).dropLast ++ [(r :: rs).getLastD []] = r :: rs from dropLast_getLastD rs r []]

/-! ### Directive-map bookkeeping -/

/-- Unfolding equation for `alSet` on a cons cell. -/
theorem alSet_cons (pk : List Char) (pv : PyVal) (rest : CCMap) (k : List Char) (v : PyVal) :
    alSet ((pk, pv) :: rest) k v =
      if pk = k then (pk, v) :: rest else (pk, pv) :: alSet rest k v := rfl

/-- Unfolding equation for `alLookup` on a cons cell. -/
theorem alLookup_cons (pk : List Char) (pv : PyVal) (rest : CCMap) (k : List Char) :
    alLookup ((pk, pv) :: rest) k =
      if pk = k then some pv else alLookup rest k := rfl

/-- Setting a key makes it readable. -/
theorem alLookup_alSet_self (M : CCMap) (k : List Char) (v : PyVal) :
    alLookup (alSet M k v) k = some v := by
  induction M with
  | nil => simp [alSet, alLookup]
  | cons p rest ih =>
    obtain ⟨pk, pv⟩ := p
    rw [alSet_cons]
    by_cases hp : pk = k
    · rw [if_pos hp, alLookup_cons, if_pos hp]
    · rw [if_neg hp, alLookup_cons, if_neg hp, ih]

/-- Setting one key leaves the others unchanged. -/
theorem alLookup_alSet_ne (M : CCMap) (k k' : List Char) (v : PyVal) (h : k' ≠ k) :
    alLookup (alSet M k' v) k = alLookup M k := by
  induction M with
  | nil =>
    show (if k' = k then some v else none) = none
    rw [if_neg h]
  | cons p rest ih =>
    obtain ⟨pk, pv⟩ := p
    rw [alSet_cons]
    by_cases hp : pk = k'
    · have hpk : ¬(pk = k) := by rw [hp]; exact h
      rw [if_pos hp, alLookup_cons, alLookup_cons, if_neg hpk, if_neg hpk]
    · rw [if_neg hp, alLookup_cons, alLookup_cons, ih]

/-- A lookup miss means the key is absent. -/
theorem alLookup_none_iff (M : CCMap) (k : List Char) :
    alLookup M k = none ↔ ∀ p ∈ M, p.1 ≠ k := by
  induction M with
  | nil => simp [alLookup]
  | cons p rest ih =>
    obtain ⟨pk, pv⟩ := p
    rw [alLookup_cons]
    by_cases hp : pk = k
    · rw [if_pos hp]
      simp only [List.mem_cons]
      constructor
      · intro h
        exact absurd h (by simp)
      · intro h
        exact absurd hp (h (pk, pv) (Or.inl rfl))
    · rw [if_neg hp, ih]
      constructor
      · intro h q hq
        rcases List.mem_cons.mp hq with hq | hq
        · rw [hq]; exact hp
        · exact h q hq
      · intro h q hq
        exact h q (List.mem_cons_of_mem _ hq)

/-- Setting an absent key appends it. -/
theorem alSet_of_lookup_none (M : CCMap) (k : List Char) (v : PyVal)
    (h : alLookup M k = none) : alSet M k v = M ++ [(k, v)] := by
  induction M with
  | nil => rfl
  | cons p rest ih =>
    obtain ⟨pk, pv⟩ := p
    have hp : ¬(pk = k) := (alLookup_none_iff _ _).mp h (pk, pv) (by simp)
    have hrest : alLookup rest k = none := by
      rw [alLookup_none_iff] at h ⊢
      intro q hq
      exact h q (List.mem_cons_of_mem _ hq)
    rw [alSet_cons, if_neg hp, ih hrest, List.cons_append]

/-- Overwriting a present key keeps the key list. -/
theorem alSet_keys_of_lookup_some (M : CCMap) (k : List Char) (v w : PyVal)
    (h : alLookup M k = some w) :
    (alSet M k v).map Prod.fst = M.map Prod.fst := by
  induction M with
  | nil => simp [alLookup] at h
  | cons p rest ih =>
    obtain ⟨pk, pv⟩ := p
    rw [alSet_cons]
    by_cases hp : pk = k
    · rw [if_pos hp]
      rfl
    · rw [alLookup_cons, if_neg hp] at h
      rw [if_neg hp]
      simp only [List.map_cons]
      rw [ih h]

/-- Every entry of `alSet` comes from the map or is the new pair. -/
theorem alSet_mem_subset (M : CCMap) (k : List Char) (v : PyVal) :
    ∀ q ∈ alSet M k v, q ∈ M ∨ q = (k, v) := by
  induction M with
  | nil => simp [alSet]
  | cons p rest ih =>
    obtain ⟨pk, pv⟩ := p
    intro q hq
    rw [alSet_cons] at hq
    by_cases hp : pk = k
    · rw [if_pos hp] at hq
      rcases List.mem_cons.mp hq with h | h
      · right; rw [h, hp]
      · left; exact List.mem_cons_of_mem _ h
    · rw [if_neg hp] at hq
      rcases List.mem_cons.mp hq with h | h
      · left; rw [h]; exact List.mem_cons_self _ _
      · rcases ih q h with h' | h'
        · left; exact List.mem_cons_of_mem _ h'
        · right; exact h'

/-- Setting a key to the value it already holds changes nothing. -/
theorem alSet_self_of_lookup (M : CCMap) (k : List Char) (v : PyVal)
    (h : alLookup M k = some v) : alSet M k v = M := by
  induction M with
  | nil => simp [alLookup] at h
  | cons p rest ih =>
    obtain ⟨pk, pv⟩ := p
    rw [alLookup_cons] at h
    rw [alSet_cons]
    by_cases hp : pk = k
    · rw [if_pos hp] at h
      have hv : pv = v := Option.some_inj.mp h
      rw [if_pos hp, hv]
    · rw [if_neg hp] at h
      rw [if_neg hp, ih h]

/-- A successful lookup is a membership. -/
theorem alLookup_mem (M : CCMap) (k : List Char) (v : PyVal)
    (h : alLookup M k = some v) : (k, v) ∈ M := by
  induction M with
  | nil => simp [alLookup] at h
  | cons p rest ih =>
    obtain ⟨pk, pv⟩ := p
    rw [alLookup_cons] at h
    by_cases hp : pk = k
    · rw [if_pos hp] at h
      have hv : pv = v := Option.some_inj.mp h
      rw [← hp, ← hv]
      exact List.mem_cons_self _ _
    · rw [if_neg hp] at h
      exact List.mem_cons_of_mem _ (ih h)

/-- `alSet` preserves distinctness of keys. -/
theorem alSet_nodup (M : CCMap) (k : List Char) (v : PyVal)
    (h : (M.map Prod.fst).Nodup) : ((alSet M k v).map Prod.fst).Nodup := by
  cases hl : alLookup M k with
  | some w => rw [alSet_keys_of_lookup_some M k v w hl]; exact h
  | none =>
    rw [alSet_of_lookup_none M k v hl, List.map_append]
    simp only [List.map_cons, List.map_nil]
    rw [List.nodup_append]
    refine ⟨h, by simp, ?_⟩
    intro x hx
    simp only [List.mem_singleton]
    intro he
    rw [List.mem_map] at hx
    obtain ⟨q, hq, hqx⟩ := hx
    exact ((alLookup_none_iff M k).mp hl q hq) (by rw [hqx, he])

/-- Rendered directives of an appended entry. -/
theorem renderDirectives_append (M : CCMap) (p : List Char × PyVal) :
    renderDirectives (M ++ [p]) =
      renderDirectives M ++ (renderDirective p.1 p.2).toList := by
  unfold renderDirectives
  rw [List.filterMap_append]
  congr 1

/-- Overwriting an entry with a render-equal value keeps the rendered
list. -/
theorem renderDirectives_alSet (M : CCMap) (k : List Char) (v w : PyVal)
    (h : alLookup M k = some w) (hr : renderDirective k w = renderDirective k v) :
    renderDirectives (alSet M k v) = renderDirectives M := by
  induction M with
  | nil => simp [alLookup] at h
  | cons p rest ih =>
    obtain ⟨pk, pv⟩ := p
    rw [alLookup_cons] at h
    rw [alSet_cons]
    by_cases hp : pk = k
    · rw [if_pos hp] at h
      have hv : pv = w := Option.some_inj.mp h
      rw [if_pos hp]
      show List.filterMap _ ((pk, v) :: rest) = List.filterMap _ ((pk, pv) :: rest)
      rw [List.filterMap_cons, List.filterMap_cons]
      have hre : renderDirective pk v = renderDirective pk pv := by
        rw [hp, hv, hr]
      rw [hre]
    · rw [if_neg hp] at h
      rw [if_neg hp]
      show List.filterMap _ ((pk, pv) :: alSet rest k v) = List.filterMap _ ((pk, pv) :: rest)
      have ih' := ih h
      unfold renderDirectives at ih'
      rw [List.filterMap_cons, List.filterMap_cons, ih']

/-! ### The reparse normal form of a merged map -/

/-- The value a directive reads back as after one render/parse cycle:
integers come back as their decimal strings, everything else survives. -/
def normVal : PyVal → PyVal
  | .pint n => .pstr (intChars n)
  | v => v

/-- The reparse normal form of a directive map: `False` directives are
dropped, remaining values normalized. -/
def nfMap (M : CCMap) : CCMap :=
  (M.filter (fun p => p.2 != .pbool false)).map (fun p => (p.1, normVal p.2))

/-- Normalization does not change how a directive renders. -/
theorem renderDirective_norm (k : List Char) (v : PyVal) :
    renderDirective k (normVal v) = renderDirective k v := by
  cases v <;> rfl

/-- The normal form renders identically. -/
theorem renderDirectives_nfMap (M : CCMap) :
    renderDirectives (nfMap M) = renderDirectives M := by
  induction M with
  | nil => rfl
  | cons p rest ih =>
    obtain ⟨pk, pv⟩ := p
    by_cases hb : pv = .pbool false
    · rw [show nfMap ((pk, pv) :: rest) = nfMap rest from by
        unfold nfMap
        rw [List.filter_cons_of_neg (by simp [hb])]]
      rw [ih]
      show renderDirectives rest = List.filterMap _ ((pk, pv) :: rest)
      rw [List.filterMap_cons]
      rw [show renderDirective (pk, pv).1 (pk, pv).2 = none from by rw [hb]; rfl]
      rfl
    · rw [show nfMap ((pk, pv) :: rest) = (pk, normVal pv) :: nfMap rest from by
        unfold nfMap
        rw [List.filter_cons_of_pos (by simp [hb])]
        rfl]
      show List.filterMap _ ((pk, normVal pv) :: nfMap rest) = List.filterMap _ ((pk, pv) :: rest)
      rw [List.filterMap_cons, List.filterMap_cons]
      have ih' : List.filterMap (fun p => renderDirective p.1 p.2) (nfMap rest) =
          List.filterMap (fun p => renderDirective p.1 p.2) rest := ih
      rw [ih', show renderDirective (pk, normVal pv).1 (pk, normVal pv).2 =
        renderDirective (pk, pv).1 (pk, pv).2 from renderDirective_norm pk pv]

/-- Keys of the normal form come from the original map. -/
theorem nfMap_keys_subset (M : CCMap) : ∀ k ∈ (nfMap M).map Prod.fst, k ∈ M.map Prod.fst := by
  intro k hk
  unfold nfMap at hk
  simp only [List.map_map, List.mem_map] at hk
  obtain ⟨p, hp, hpk⟩ := hk
  rw [List.mem_map]
  exact ⟨p, List.mem_of_mem_filter hp, hpk⟩

/-- The normal form keeps keys distinct. -/
theorem nfMap_nodup (M : CCMap) (h : (M.map Prod.fst).Nodup) :
    ((nfMap M).map Prod.fst).Nodup := by
  unfold nfMap
  simp only [List.map_map]
  have : (M.filter (fun p => p.2 != .pbool false)).map
      ((fun p : List Char × PyVal => (p.1, normVal p.2)) · |>.1) =
      (M.filter (fun p => p.2 != .pbool false)).map Prod.fst := by
    exact List.map_congr_left (fun p _ => rfl)
  rw [show ((fun p : List Char × PyVal => p.1) ∘ fun p : List Char × PyVal => (p.1, normVal p.2)) =
    (Prod.fst : List Char × PyVal → List Char) from funext (fun p => rfl)]
  exact (List.Sublist.map Prod.fst (List.filter_sublist M)).nodup h

/-- `nfMap` lookups against the original map. -/
theorem alLookup_nfMap (M : CCMap) (hnd : (M.map Prod.fst).Nodup) (k : List Char) :
    alLookup (nfMap M) k =
      match alLookup M k with
      | some v => if v = .pbool false then none else some (normVal v)
      | none => none := by
  induction M with
  | nil => rfl
  | cons p rest ih =>
    obtain ⟨pk, pv⟩ := p
    have hnd' : (rest.map Prod.fst).Nodup := (List.nodup_cons.mp hnd).2
    have hpk_not : pk ∉ rest.map Prod.fst := (List.nodup_cons.mp hnd).1
    rw [alLookup_cons]
    by_cases hp : pk = k
    · rw [if_pos hp]
      by_cases hb : pv = .pbool false
      · rw [show nfMap ((pk, pv) :: rest) = nfMap rest from by
          unfold nfMap
          rw [List.filter_cons_of_neg (by simp [hb])]]
        rw [show (match some pv with
            | some v => if v = PyVal.pbool false then none else some (normVal v)
            | none => none) = none from by rw [hb]; simp]
        rw [alLookup_none_iff]
        intro q hq
        intro he
        apply hpk_not
        rw [hp, ← he]
        exact nfMap_keys_subset rest q.1 (List.mem_map_of_mem Prod.fst hq)
      · rw [show nfMap ((pk, pv) :: rest) = (pk, normVal pv) :: nfMap rest from by
          unfold nfMap
          rw [List.filter_cons_of_pos (by simp [hb])]
          rfl]
        rw [alLookup_cons, if_pos hp]
        rw [show (match some pv with
            | some v => if v = PyVal.pbool false then none else some (normVal v)
            | none => none) = some (normVal pv) from by simp [hb]]
    · rw [if_neg hp]
      by_cases hb : pv = .pbool false
      · rw [show nfMap ((pk, pv) :: rest) = nfMap rest from by
          unfold nfMap
          rw [List.filter_cons_of_neg (by simp [hb])]]
        exact ih hnd'
      · rw [show nfMap ((pk, pv) :: rest) = (pk, normVal pv) :: nfMap rest from by
          unfold nfMap
          rw [List.filter_cons_of_pos (by simp [hb])]
          rfl]
        rw [alLookup_cons, if_neg hp]
        exact ih hnd'

/-! ### `mergeKw` bookkeeping -/

/-- `mergeKw` step equation. -/
theorem mergeKw_cons (M : CCMap) (k : List Char) (v : PyVal) (kw : Kwargs) :
    mergeKw M ((k, v) :: kw) = mergeKw (alSet M (hyphenate k) v) kw := rfl

/-- Keys not overridden keep their lookup through a merge. -/
theorem alLookup_mergeKw_not_mem (kw : Kwargs) : ∀ (M : CCMap) (hk : List Char),
    (∀ p ∈ kw, hyphenate p.1 ≠ hk) →
    alLookup (mergeKw M kw) hk = alLookup M hk := by
  induction kw with
  | nil => intro M hk _; rfl
  | cons q kw' ih =>
    intro M hk h
    obtain ⟨qk, qv⟩ := q
    rw [mergeKw_cons, ih _ hk (fun p hp => h p (List.mem_cons_of_mem _ hp)),
      alLookup_alSet_ne _ _ _ _ (h (qk, qv) (List.mem_cons_self _ _))]

/-- After a merge with distinct hyphenated names, every override reads
back. -/
theorem alLookup_mergeKw_of_mem (kw : Kwargs) : ∀ (M : CCMap),
    ((kw.map (fun p => hyphenate p.1)).Nodup) →
    ∀ p ∈ kw, alLookup (mergeKw M kw) (hyphenate p.1) = some p.2 := by
  induction kw with
  | nil => intro M _ p hp; simp at hp
  | cons q kw' ih =>
    intro M hnd p hp
    obtain ⟨qk, qv⟩ := q
    rw [List.map_cons, List.nodup_cons] at hnd
    rcases List.mem_cons.mp hp with hp0 | hp0
    · rw [hp0, mergeKw_cons]
      rw [alLookup_mergeKw_not_mem kw' _ _ (fun r hr he => hnd.1 (by
        rw [← he]
        exact List.mem_map_of_mem _ hr))]
      exact alLookup_alSet_self _ _ _
    · rw [mergeKw_cons]
      exact ih _ hnd.2 p hp0

/-- Entries of a merge come from the map or from an override. -/
theorem mergeKw_mem_subset (kw : Kwargs) : ∀ (M : CCMap),
    ∀ q ∈ mergeKw M kw, q ∈ M ∨ ∃ p ∈ kw, q = (hyphenate p.1, p.2) := by
  induction kw with
  | nil => intro M q hq; exact Or.inl hq
  | cons r kw' ih =>
    intro M q hq
    obtain ⟨rk, rv⟩ := r
    rw [mergeKw_cons] at hq
    rcases ih _ q hq with h | h
    · rcases alSet_mem_subset M (hyphenate rk) rv q h with h' | h'
      · exact Or.inl h'
      · exact Or.inr ⟨(rk, rv), List.mem_cons_self _ _, h'⟩
    · obtain ⟨p, hp, hpq⟩ := h
      exact Or.inr ⟨p, List.mem_cons_of_mem _ hp, hpq⟩

/-- A merge preserves distinctness of keys. -/
theorem mergeKw_nodup (kw : Kwargs) : ∀ (M : CCMap),
    (M.map Prod.fst).Nodup → ((mergeKw M kw).map Prod.fst).Nodup := by
  induction kw with
  | nil => intro M h; exact h
  | cons q kw' ih =>
    intro M h
    obtain ⟨qk, qv⟩ := q
    rw [mergeKw_cons]
    exact ih _ (alSet_nodup _ _ _ h)

/-! ### Fields that survive a render/parse cycle -/

/-- A field is reparse-stable when it self-parses and is already
stripped. -/
def fieldOK (f : List Char) : Prop := selfParses f ∧ pyStrip f = f

/-- Characters allowed in an override name: anything that cannot
disturb the scanner, the strip, or the `'='` split. -/
def tokChar (c : Char) : Bool :=
  !(c == '=') && !(c == ',') && !(c == '"') && !(c == '\\') && !(pyIsSpace c)

/-- A valid override name: non-empty and made of plain token
characters. -/
def tokenName (k : List Char) : Prop := k ≠ [] ∧ ∀ c ∈ k, tokChar c = true

/-- Characters that are harmless to the scanner and the strip. -/
def plainNoSpace (c : Char) : Bool :=
  !(c == ',') && !(c == '"') && !(c == '\\') && !(pyIsSpace c)

/-- A string of harmless characters is a stable field. -/
theorem fieldOK_of_plain (f : List Char) (h : ∀ c ∈ f, plainNoSpace c = true) :
    fieldOK f := by
  constructor
  · apply selfParses_of_plain
    intro c hc
    have := h c hc
    unfold plainNoSpace at this
    simp only [Bool.and_eq_true, Bool.not_eq_true', beq_eq_false_iff_ne] at this
    exact ⟨this.1.1.1, this.1.1.2, this.1.2⟩
  · apply pyStrip_of_no_space
    intro c hc
    have := h c hc
    unfold plainNoSpace at this
    simp only [Bool.and_eq_true, Bool.not_eq_true'] at this
    exact this.2

/-- Token characters are harmless. -/
theorem tokChar_plainNoSpace (c : Char) (h : tokChar c = true) : plainNoSpace c = true := by
  unfold tokChar at h
  unfold plainNoSpace
  simp only [Bool.and_eq_true] at h ⊢
  exact ⟨⟨⟨h.1.1.1.2, h.1.1.2⟩, h.1.2⟩, h.2⟩

/-- Token characters are not `'='`. -/
theorem tokChar_ne_eq (c : Char) (h : tokChar c = true) : c ≠ '=' := by
  unfold tokChar at h
  simp only [Bool.and_eq_true, Bool.not_eq_true', beq_eq_false_iff_ne] at h
  exact h.1.1.1.1

/-- Digit and minus characters are harmless. -/
theorem plainNoSpace_of_digit (c : Char)
    (h : c.toNat = 45 ∨ (48 ≤ c.toNat ∧ c.toNat ≤ 57)) : plainNoSpace c = true := by
  have h1 : c ≠ ',' := by
    intro he
    rw [he] at h
    rcases h with h | h
    · exact absurd h (by decide)
    · exact absurd h.1 (by decide)
  have h2 : c ≠ '"' := by
    intro he
    rw [he] at h
    rcases h with h | h
    · exact absurd h (by decide)
    · exact absurd h.1 (by decide)
  have h3 : c ≠ '\\' := by
    intro he
    rw [he] at h
    rcases h with h | h
    · exact absurd h (by decide)
    · exact absurd h.2 (by decide)
  have h4 : pyIsSpace c = false := by
    rcases h with h | h
    · exact pyIsSpace_false_of_toNat c (by omega) (by omega)
    · exact pyIsSpace_false_of_toNat c (by omega) (by omega)
  unfold plainNoSpace
  simp [h1, h2, h3, h4]

/-- Digit and minus characters are not `'='`. -/
theorem digit_ne_eq (c : Char)
    (h : c.toNat = 45 ∨ (48 ≤ c.toNat ∧ c.toNat ≤ 57)) : c ≠ '=' := by
  intro he
  rw [he] at h
  rcases h with h | h
  · exact absurd h (by decide)
  · exact absurd h.2 (by decide)

/-- Hyphenation keeps token characters. -/
theorem hyphenate_tokChar (k : List Char) (h : ∀ c ∈ k, tokChar c = true) :
    ∀ c ∈ hyphenate k, tokChar c = true := by
  intro c hc
  unfold hyphenate at hc
  rw [List.mem_map] at hc
  obtain ⟨a, ha, hac⟩ := hc
  by_cases hu : a = '_'
  · rw [← hac, hu]
    decide
  · rw [← hac, if_neg hu]
    exact h a ha

/-- Hyphenation keeps names non-empty. -/
theorem hyphenate_ne_nil (k : List Char) (h : k ≠ []) : hyphenate k ≠ [] := by
  unfold hyphenate
  intro he
  exact h (List.map_eq_nil_iff.mp he)

/-- An entry that reparses to itself up to value normalization, carrying
the facts about the field it renders to. -/
def entryOK (p : List Char × PyVal) : Prop :=
  p.2 = .pbool false ∨
  (p.2 = .pbool true ∧ ccParseField p.1 = (p.1, .pbool true) ∧ fieldOK p.1) ∨
  (∃ s, p.2 = .pstr s ∧ splitEq (p.1 ++ '=' :: s) = [p.1, s] ∧ fieldOK (p.1 ++ '=' :: s)) ∨
  (∃ n, p.2 = .pint n ∧ splitEq (p.1 ++ '=' :: intChars n) = [p.1, intChars n] ∧
    fieldOK (p.1 ++ '=' :: intChars n))

/-- Parsing a stable field yields an OK entry. -/
theorem entryOK_of_field (f : List Char) (hf : fieldOK f) : entryOK (ccParseField f) := by
  match hsp : splitEq f with
  | [a, b] =>
    have hcp : ccParseField f = (a, .pstr b) := by
      unfold ccParseField
      rw [hsp]
    obtain ⟨h1, _, _⟩ := splitEq_pair f a b hsp
    rw [hcp]
    right; right; left
    refine ⟨b, rfl, ?_, ?_⟩
    · show splitEq (a ++ '=' :: b) = [a, b]
      rw [← h1, hsp]
    · show fieldOK (a ++ '=' :: b)
      rw [← h1]
      exact hf
  | [] => exact absurd hsp (splitEq_ne_nil f)
  | [a] =>
    have hcp : ccParseField f = (f, .pbool true) := by
      unfold ccParseField
      rw [hsp]
    rw [hcp]
    right; left
    exact ⟨rfl, by rw [hcp], hf⟩
  | a :: b :: c :: rest =>
    have hcp : ccParseField f = (f, .pbool true) := by
      unfold ccParseField
      rw [hsp]
    rw [hcp]
    right; left
    exact ⟨rfl, by rw [hcp], hf⟩

/-- Entries produced by folding `alSet` over parsed fields. -/
theorem ccFold_mem (fields : List (List Char)) : ∀ (M : CCMap), ∀ p ∈
    fields.foldl (fun cc f => alSet cc (ccParseField f).1 (ccParseField f).2) M,
    p ∈ M ∨ ∃ f ∈ fields, p = ccParseField f := by
  induction fields with
  | nil => intro M p hp; exact Or.inl hp
  | cons f fs ih =>
    intro M p hp
    rcases ih _ p hp with h | h
    · rcases alSet_mem_subset M (ccParseField f).1 (ccParseField f).2 p h with h' | h'
      · exact Or.inl h'
      · exact Or.inr ⟨f, List.mem_cons_self _ _, by rw [h']⟩
    · obtain ⟨g, hg, hpg⟩ := h
      exact Or.inr ⟨g, List.mem_cons_of_mem _ hg, hpg⟩

/-- Every entry of the parsed directive map comes from a field. -/
theorem ccOfFields_mem (fields : List (List Char)) :
    ∀ p ∈ ccOfFields fields, ∃ f ∈ fields, p = ccParseField f := by
  intro p hp
  rcases ccFold_mem fields [] p hp with h | h
  · simp at h
  · exact h

/-- The parsed directive map always has distinct keys. -/
theorem ccFold_nodup (fields : List (List Char)) : ∀ (M : CCMap),
    (M.map Prod.fst).Nodup →
    ((fields.foldl (fun cc f => alSet cc (ccParseField f).1 (ccParseField f).2) M).map
      Prod.fst).Nodup := by
  induction fields with
  | nil => intro M h; exact h
  | cons f fs ih =>
    intro M h
    exact ih _ (alSet_nodup _ _ _ h)

/-- `ccOfFields` has distinct keys. -/
theorem ccOfFields_nodup (fields : List (List Char)) :
    ((ccOfFields fields).map Prod.fst).Nodup :=
  ccFold_nodup fields [] (by simp)

/-- The fields of `parse_http_list` on a backslash-free, quote-balanced
header value are stable. -/
theorem parts_fieldOK (s : List Char) (hnb : noBS s)
    (hq : (phlFold phlInit s).quote = false) :
    ∀ f ∈ parseHttpListCore s, fieldOK f := by
  obtain ⟨he, hreplay, hres, hpart⟩ := phl_invariant s hnb
  intro f hf
  unfold parseHttpListCore at hf
  simp only [List.mem_map] at hf
  obtain ⟨f0, hf0, rfl⟩ := hf
  have hsp : selfParses f0 ∧ noBS f0 := by
    by_cases hpe : (phlFold phlInit s).part.isEmpty = true
    · rw [if_pos hpe] at hf0
      exact hres f0 hf0
    · rw [if_neg hpe] at hf0
      rcases List.mem_append.mp hf0 with h | h
      · exact hres f0 h
      · rw [List.mem_singleton.mp h]
        refine ⟨?_, hpart⟩
        unfold selfParses
        rw [hreplay, hq]
  exact ⟨selfParses_strip f0 hsp.1 hsp.2, pyStrip_idem f0⟩

/-- Every rendered directive of a map of OK entries is a stable field. -/
theorem renderDirectives_fieldOK (M : CCMap) (hM : ∀ p ∈ M, entryOK p) :
    ∀ f ∈ renderDirectives M, fieldOK f := by
  intro f hf
  unfold renderDirectives at hf
  rw [List.mem_filterMap] at hf
  obtain ⟨p, hp, hr⟩ := hf
  rcases hM p hp with h | h | h | h
  · rw [show renderDirective p.1 p.2 = none from by rw [h]; rfl] at hr
    exact absurd hr (by simp)
  · rw [show renderDirective p.1 p.2 = some p.1 from by rw [h.1]; rfl] at hr
    rw [← Option.some_inj.mp hr]
    exact h.2.2
  · obtain ⟨s, hv, _, hfo⟩ := h
    rw [show renderDirective p.1 p.2 = some (p.1 ++ '=' :: s) from by rw [hv]; rfl] at hr
    rw [← Option.some_inj.mp hr]
    exact hfo
  · obtain ⟨n, hv, _, hfo⟩ := h
    rw [show renderDirective p.1 p.2 = some (p.1 ++ '=' :: intChars n) from by rw [hv]; rfl] at hr
    rw [← Option.some_inj.mp hr]
    exact hfo

/-- Reparsing the rendered directives of an OK map gives its normal
form, fieldwise. -/
theorem renderDirectives_map_parse (M : CCMap) (hM : ∀ p ∈ M, entryOK p) :
    (renderDirectives M).map ccParseField = nfMap M := by
  induction M with
  | nil => rfl
  | cons p rest ih =>
    obtain ⟨pk, pv⟩ := p
    have hM' : ∀ q ∈ rest, entryOK q := fun q hq => hM q (List.mem_cons_of_mem _ hq)
    have ihr := ih hM'
    unfold renderDirectives at ihr
    rcases hM (pk, pv) (List.mem_cons_self _ _) with h | h | h | h
    · rw [show pv = .pbool false from h]
      show ((List.filterMap _ ((pk, PyVal.pbool false) :: rest)).map ccParseField) = _
      rw [List.filterMap_cons]
      rw [show renderDirective (pk, PyVal.pbool false).1 (pk, PyVal.pbool false).2 = none from rfl]
      rw [show nfMap ((pk, PyVal.pbool false) :: rest) = nfMap rest from by
        unfold nfMap
        rw [List.filter_cons_of_neg (by simp)]]
      exact ihr
    · obtain ⟨hv, hcp0, _⟩ := h
      have hcp : ccParseField pk = (pk, .pbool true) := hcp0
      rw [show pv = .pbool true from hv]
      show ((List.filterMap _ ((pk, PyVal.pbool true) :: rest)).map ccParseField) = _
      rw [List.filterMap_cons]
      rw [show renderDirective (pk, PyVal.pbool true).1 (pk, PyVal.pbool true).2 =
        some pk from rfl]
      rw [show nfMap ((pk, PyVal.pbool true) :: rest) = (pk, .pbool true) :: nfMap rest from by
        unfold nfMap
        rw [List.filter_cons_of_pos (by simp)]
        rfl]
      rw [List.map_cons, hcp, ihr]
    · obtain ⟨s, hv, hspl0, _⟩ := h
      have hspl : splitEq (pk ++ '=' :: s) = [pk, s] := hspl0
      rw [show pv = .pstr s from hv]
      show ((List.filterMap _ ((pk, PyVal.pstr s) :: rest)).map ccParseField) = _
      rw [List.filterMap_cons]
      rw [show renderDirective (pk, PyVal.pstr s).1 (pk, PyVal.pstr s).2 =
        some (pk ++ '=' :: s) from rfl]
      rw [show nfMap ((pk, PyVal.pstr s) :: rest) = (pk, .pstr s) :: nfMap rest from by
        unfold nfMap
        rw [List.filter_cons_of_pos (by simp)]
        rfl]
      rw [List.map_cons, ihr]
      congr 1
      unfold ccParseField
      rw [hspl]
    · obtain ⟨n, hv, hspl0, _⟩ := h
      have hspl : splitEq (pk ++ '=' :: intChars n) = [pk, intChars n] := hspl0
      rw [show pv = .pint n from hv]
      show ((List.filterMap _ ((pk, PyVal.pint n) :: rest)).map ccParseField) = _
      rw [List.filterMap_cons]
      rw [show renderDirective (pk, PyVal.pint n).1 (pk, PyVal.pint n).2 =
        some (pk ++ '=' :: intChars n) from rfl]
      rw [show nfMap ((pk, PyVal.pint n) :: rest) = (pk, .pstr (intChars n)) :: nfMap rest from by
        unfold nfMap
        rw [List.filter_cons_of_pos (by simp)]
        rfl]
      rw [List.map_cons, ihr]
      congr 1
      unfold ccParseField
      rw [hspl]

/-- `alLookup` skips a disjoint prefix. -/
theorem alLookup_append_none (A B : CCMap) (k : List Char)
    (hA : alLookup A k = none) : alLookup (A ++ B) k = alLookup B k := by
  induction A with
  | nil => rfl
  | cons p rest ih =>
    obtain ⟨pk, pv⟩ := p
    rw [alLookup_cons] at hA
    by_cases hp : pk = k
    · rw [if_pos hp] at hA
      exact absurd hA (by simp)
    · rw [if_neg hp] at hA
      show alLookup ((pk, pv) :: (rest ++ B)) k = alLookup B k
      rw [alLookup_cons, if_neg hp]
      exact ih hA

/-- Folding `alSet` over pairs with globally fresh keys appends them. -/
theorem foldl_alSet_pairs (pairs : CCMap) : ∀ (M : CCMap),
    ((M.map Prod.fst ++ pairs.map Prod.fst).Nodup) →
    pairs.foldl (fun cc p => alSet cc p.1 p.2) M = M ++ pairs := by
  induction pairs with
  | nil => intro M _; rw [List.foldl_nil, List.append_nil]
  | cons p ps ih =>
    intro M hnd
    obtain ⟨pk, pv⟩ := p
    have hpk : pk ∉ M.map Prod.fst := by
      simp only [List.map_cons] at hnd
      rw [List.nodup_append] at hnd
      intro hmem
      exact hnd.2.2 hmem (List.mem_cons_self _ _)
    have hfresh : alLookup M pk = none := by
      rw [alLookup_none_iff]
      intro q hq he
      exact hpk (List.mem_map.mpr ⟨q, hq, he⟩)
    rw [List.foldl_cons]
    rw [show alSet M (pk, pv).1 (pk, pv).2 = M ++ [(pk, pv)] from
      alSet_of_lookup_none M pk pv hfresh]
    rw [ih (M ++ [(pk, pv)]) (by
      simp only [List.map_append, List.map_cons, List.map_nil] at hnd ⊢
      rw [List.append_assoc]
      simpa using hnd)]
    rw [List.append_assoc]
    rfl

/-- Rebuilding the directive map from fields whose parses are known. -/
theorem ccOfFields_eq_pairs (fields : List (List Char)) (pairs : CCMap)
    (h : fields.map ccParseField = pairs) (hnd : (pairs.map Prod.fst).Nodup) :
    ccOfFields fields = pairs := by
  unfold ccOfFields
  rw [show fields.foldl (fun cc f => alSet cc (ccParseField f).1 (ccParseField f).2) [] =
    (fields.map ccParseField).foldl (fun cc p => alSet cc p.1 p.2) [] from
    (List.foldl_map ccParseField (fun cc (p : List Char × PyVal) => alSet cc p.1 p.2)
      fields []).symm]
  rw [h]
  exact foldl_alSet_pairs pairs [] (by simpa using hnd)

/-- An empty comma-space join means no field or a single empty field. -/
theorem intercalate_comma_empty (ds : List (List Char))
    (h : (List.intercalate ", ".data ds).isEmpty = true) : ds = [] ∨ ds = [[]] := by
  rw [intercalate_eq_joinComma] at h
  cases ds with
  | nil => exact Or.inl rfl
  | cons d rest =>
    cases rest with
    | nil =>
      right
      congr
      show d = []
      cases d with
      | nil => rfl
      | cons c cs => exact absurd h (by simp [joinComma])
    | cons r rs =>
      exfalso
      rw [show joinComma (d :: r :: rs) = d ++ ',' :: ' ' :: joinComma (r :: rs) from rfl] at h
      rw [List.isEmpty_iff] at h
      exact absurd h (by simp)

/-! ### Merging against the reparse normal form -/

/-- How a reparsed lookup may relate to the original: equal rendering,
or an absent entry whose original rendered to nothing. -/
def optRel (k : List Char) : Option PyVal → Option PyVal → Prop
  | some w, some v => renderDirective k w = renderDirective k v
  | none, some v => renderDirective k v = none
  | none, none => True
  | some _, none => False

/-- Merging overrides the map already carries into a render-equivalent
map reproduces the original rendering. -/
theorem mergeRender (kw : Kwargs) : ∀ (N M : CCMap),
    ((N.map Prod.fst).Nodup) →
    renderDirectives N = renderDirectives M →
    (∀ k, optRel k (alLookup N k) (alLookup M k)) →
    (∀ p ∈ kw, alLookup M (hyphenate p.1) = some p.2) →
    renderDirectives (mergeKw N kw) = renderDirectives M := by
  induction kw with
  | nil => intro N M _ hr _ _; exact hr
  | cons q kw' ih =>
    intro N M hnd hr hrel hkw
    obtain ⟨qk, qv⟩ := q
    have hM : alLookup M (hyphenate qk) = some qv := hkw (qk, qv) (List.mem_cons_self _ _)
    rw [mergeKw_cons]
    apply ih (alSet N (hyphenate qk) qv) M
    · exact alSet_nodup _ _ _ hnd
    · have hrel0 := hrel (hyphenate qk)
      cases hN : alLookup N (hyphenate qk) with
      | some w =>
        rw [hN, hM] at hrel0
        have hrel1 : renderDirective (hyphenate qk) w = renderDirective (hyphenate qk) qv :=
          hrel0
        rw [renderDirectives_alSet N _ qv w hN hrel1]
        exact hr
      | none =>
        rw [hN, hM] at hrel0
        have hrel1 : renderDirective (hyphenate qk) qv = none := hrel0
        rw [alSet_of_lookup_none N _ qv hN, renderDirectives_append]
        rw [show (renderDirective ((hyphenate qk, qv) : List Char × PyVal).1
            ((hyphenate qk, qv) : List Char × PyVal).2).toList = [] from by
          rw [show renderDirective ((hyphenate qk, qv) : List Char × PyVal).1
            ((hyphenate qk, qv) : List Char × PyVal).2 = none from hrel1]
          rfl]
        rw [List.append_nil]
        exact hr
    · intro k
      by_cases hk : k = hyphenate qk
      · rw [hk, alLookup_alSet_self, hM]
        show renderDirective (hyphenate qk) qv = renderDirective (hyphenate qk) qv
        rfl
      · rw [alLookup_alSet_ne N k (hyphenate qk) qv (fun he => hk he.symm)]
        exact hrel k
    · intro p hp
      exact hkw p (List.mem_cons_of_mem _ hp)

/-! ### The idempotence theorem for `patch_cache_control` -/

/-- A well-formed `Cache-Control` value: no backslash, balanced quotes. -/
def GoodCC (s : List Char) : Prop := noBS s ∧ (phlFold phlInit s).quote = false

/-- The directive values the overrides may carry: booleans or integers. -/
def valIsBoolInt : PyVal → Bool
  | .pbool _ => true
  | .pint _ => true
  | .pstr _ => false

/-- An integer directive value. -/
def valIsInt : PyVal → Bool
  | .pint _ => true
  | _ => false

/-- Case analysis for `valIsBoolInt`. -/
theorem valIsBoolInt_cases (v : PyVal) (h : valIsBoolInt v = true) :
    (∃ b, v = .pbool b) ∨ ∃ n, v = .pint n := by
  cases v with
  | pbool b => exact Or.inl ⟨b, rfl⟩
  | pint n => exact Or.inr ⟨n, rfl⟩
  | pstr s => exact absurd h (by simp [valIsBoolInt])

/-- Case analysis for `valIsInt`. -/
theorem valIsInt_cases (v : PyVal) (h : valIsInt v = true) : ∃ n, v = .pint n := by
  cases v with
  | pbool b => exact absurd h (by simp [valIsInt])
  | pint n => exact ⟨n, rfl⟩
  | pstr s => exact absurd h (by simp [valIsInt])

/-- Well-formed overrides: distinct hyphenated token names, boolean or
integer values, and an integer `max_age`. -/
def KwOK (kw : Kwargs) : Prop :=
  (kw.map (fun p => hyphenate p.1)).Nodup ∧
  ∀ p ∈ kw, tokenName p.1 ∧ valIsBoolInt p.2 = true ∧
    (p.1 = "max_age".data → valIsInt p.2 = true)

/-- A merged override entry is reparse-stable. -/
theorem entryOK_kw_entry (k : List Char) (v : PyVal) (htok : tokenName k)
    (hv : (∃ b, v = .pbool b) ∨ ∃ n, v = .pint n) : entryOK (hyphenate k, v) := by
  have htokh : ∀ c ∈ hyphenate k, tokChar c = true := hyphenate_tokChar k htok.2
  have hkne : hyphenate k ≠ [] := hyphenate_ne_nil k htok.1
  have hfo : fieldOK (hyphenate k) :=
    fieldOK_of_plain _ (fun c hc => tokChar_plainNoSpace c (htokh c hc))
  rcases hv with ⟨b, hb⟩ | ⟨n, hn⟩
  · cases b with
    | false => exact Or.inl hb
    | true =>
      right; left
      refine ⟨hb, ?_, hfo⟩
      show ccParseField (hyphenate k) = (hyphenate k, .pbool true)
      have hsp : splitEq (hyphenate k) = [hyphenate k] :=
        splitEq_no_eq _ (fun c hc => tokChar_ne_eq c (htokh c hc))
      unfold ccParseField
      rw [hsp]
  · right; right; right
    refine ⟨n, hn, ?_, ?_⟩
    · show splitEq (hyphenate k ++ '=' :: intChars n) = [hyphenate k, intChars n]
      exact splitEq_append_pair _ _ (fun c hc => tokChar_ne_eq c (htokh c hc))
        (fun c hc => digit_ne_eq c (intChars_chars n c hc))
    · show fieldOK (hyphenate k ++ '=' :: intChars n)
      apply fieldOK_of_plain
      intro c hc
      rcases List.mem_append.mp hc with h | h
      · exact tokChar_plainNoSpace c (htokh c h)
      · rcases List.mem_cons.mp h with h | h
        · rw [h]; decide
        · exact plainNoSpace_of_digit c (intChars_chars n c h)

/-- Shape analysis of a successful `max-age` adjustment. -/
theorem adjustMaxAge_cases (cc : CCMap) (kw kw' : Kwargs)
    (h : adjustMaxAge cc kw = some kw') :
    ((alLookup cc "max-age".data = none ∨ alLookup kw "max_age".data = none) ∧ kw' = kw) ∨
    (∃ ev kv n v, alLookup cc "max-age".data = some ev ∧
      alLookup kw "max_age".data = some kv ∧
      pyIntOfVal ev = some n ∧ pyMinVal n kv = some v ∧
      kw' = alSet kw "max_age".data v) := by
  unfold adjustMaxAge at h
  cases hev : alLookup cc "max-age".data with
  | none =>
    rw [hev] at h
    exact Or.inl ⟨Or.inl rfl, (Option.some_inj.mp h).symm⟩
  | some ev =>
    rw [hev] at h
    cases hkv : alLookup kw "max_age".data with
    | none =>
      rw [hkv] at h
      exact Or.inl ⟨Or.inr rfl, (Option.some_inj.mp h).symm⟩
    | some kv =>
      rw [hkv] at h
      dsimp only at h
      cases hn : pyIntOfVal ev with
      | none =>
        rw [hn] at h
        exact absurd h (by simp)
      | some n =>
        rw [hn] at h
        dsimp only at h
        cases hv : pyMinVal n kv with
        | none =>
          rw [hv] at h
          exact absurd h (by simp)
        | some v =>
          rw [hv] at h
          right
          refine ⟨ev, kv, n, v, rfl, rfl, hn, hv, ?_⟩
          have : some (alSet kw "max_age".data v) = some kw' := h
          exact (Option.some_inj.mp this).symm

/-- Hyphenating the `max_age` override name. -/
theorem hyphenate_max_age : hyphenate "max_age".data = "max-age".data := by decide

/-- A map whose directives all render to nothing serializes empty. -/
theorem renderDirectives_nil_of_none (M : CCMap)
    (h : ∀ p ∈ M, renderDirective p.1 p.2 = none) : renderDirectives M = [] := by
  induction M with
  | nil => rfl
  | cons p rest ih =>
    show List.filterMap _ (p :: rest) = []
    rw [List.filterMap_cons, h p (List.mem_cons_self _ _)]
    exact ih (fun q hq => h q (List.mem_cons_of_mem _ hq))

/-- Entries with other keys survive an `alSet`. -/
theorem alSet_mem_of_ne (M : CCMap) (k : List Char) (v : PyVal) :
    ∀ p ∈ M, p.1 ≠ k → p ∈ alSet M k v := by
  induction M with
  | nil => intro p hp; simp at hp
  | cons q rest ih =>
    obtain ⟨qk, qv⟩ := q
    intro p hp hne
    rw [alSet_cons]
    by_cases hq : qk = k
    · rw [if_pos hq]
      rcases List.mem_cons.mp hp with h | h
      · exact absurd (by rw [h] at hne ⊢; exact hq) hne
      · exact List.mem_cons_of_mem _ h
    · rw [if_neg hq]
      rcases List.mem_cons.mp hp with h | h
      · rw [h]; exact List.mem_cons_self _ _
      · exact List.mem_cons_of_mem _ (ih p h hne)

/-- `patch_cache_control` at the value level is idempotent on
well-formed inputs: re-applying the same overrides to its own output
reproduces that output. -/
theorem patchCCValue_idem (ex : Option (List Char)) (kw : Kwargs)
    (hgc : GoodCC (ex.getD [])) (hkw : KwOK kw) (v1 : Option (List Char))
    (h1 : patchCCValue ex kw = .ok v1) :
    patchCCValue v1 kw = .ok v1 := by
  have hnd_kw : (kw.map (fun p => hyphenate p.1)).Nodup := hkw.1
  simp only [patchCCValue, patchCCMap] at h1
  cases hadj : adjustMaxAge (ccOfFields (parseHttpListCore (ex.getD []))) kw with
  | none =>
    rw [hadj] at h1
    simp at h1
  | some kw1 =>
    rw [hadj] at h1
    dsimp only at h1
    cases hpub : (alLookup kw "public".data).isSome with
    | true =>
      rw [hpub] at h1
      simp at h1
    | false =>
      rw [hpub] at h1
      cases hpriv : (alLookup kw "private".data).isSome with
      | true =>
        rw [hpriv] at h1
        simp at h1
      | false =>
        rw [hpriv] at h1
        simp only [Bool.false_eq_true, if_false] at h1
        set cc1 := ccOfFields (parseHttpListCore (ex.getD [])) with hcc1def
        set m1 := mergeKw cc1 kw1 with hm1def
        set renders := renderDirectives m1 with hrendersdef
        set patched := List.intercalate ", ".data renders with hpatcheddef
        have hfieldsOK : ∀ f ∈ parseHttpListCore (ex.getD []), fieldOK f :=
          parts_fieldOK _ hgc.1 hgc.2
        have hccOK : ∀ p ∈ cc1, entryOK p := by
          intro p hp
          obtain ⟨f, hf, hpf⟩ := ccOfFields_mem _ p hp
          rw [hpf]
          exact entryOK_of_field f (hfieldsOK f hf)
        have hccnd : (cc1.map Prod.fst).Nodup := ccOfFields_nodup _
        have hkw1good : ∀ p ∈ kw1, tokenName p.1 ∧
            ((∃ b, p.2 = .pbool b) ∨ ∃ n, p.2 = .pint n) := by
          rcases adjustMaxAge_cases cc1 kw kw1 hadj with ⟨-, hkk⟩ |
            ⟨ev, kv, n, v, hev, hkvl, hn, hv, hkk⟩
          · intro p hp
            rw [hkk] at hp
            exact ⟨(hkw.2 p hp).1, valIsBoolInt_cases _ (hkw.2 p hp).2.1⟩
          · intro p hp
            rw [hkk] at hp
            rcases alSet_mem_subset kw _ _ p hp with h | h
            · exact ⟨(hkw.2 p h).1, valIsBoolInt_cases _ (hkw.2 p h).2.1⟩
            · have hmem := alLookup_mem kw _ kv hkvl
              obtain ⟨m, hm⟩ := valIsInt_cases kv ((hkw.2 _ hmem).2.2 rfl)
              have hm' : kv = .pint m := hm
              rw [hm', pyMinVal_pint] at hv
              have hvv : v = .pint (min n m) := (Option.some_inj.mp hv).symm
              refine ⟨?_, ?_⟩
              · rw [h]
                show tokenName "max_age".data
                exact ⟨by decide, by decide⟩
              · right
                exact ⟨min n m, by rw [h]; exact hvv⟩
        have hkw1nd : (kw1.map (fun p => hyphenate p.1)).Nodup := by
          rcases adjustMaxAge_cases cc1 kw kw1 hadj with ⟨-, hkk⟩ |
            ⟨ev, kv, n, v, hev, hkvl, hn, hv, hkk⟩
          · rw [hkk]; exact hnd_kw
          · have hkeys : (alSet kw "max_age".data v).map Prod.fst = kw.map Prod.fst :=
              alSet_keys_of_lookup_some _ _ _ kv hkvl
            rw [hkk]
            rw [show (fun p : List Char × PyVal => hyphenate p.1) =
              hyphenate ∘ Prod.fst from rfl, ← List.map_map, hkeys, List.map_map]
            exact hnd_kw
        have hm1OK : ∀ p ∈ m1, entryOK p := by
          intro p hp
          rcases mergeKw_mem_subset kw1 cc1 p hp with h | ⟨q, hq, hpq⟩
          · exact hccOK p h
          · rw [hpq]
            exact entryOK_kw_entry q.1 q.2 (hkw1good q hq).1 (hkw1good q hq).2
        have hm1nd : (m1.map Prod.fst).Nodup := mergeKw_nodup kw1 cc1 hccnd
        have hkw1look : ∀ p ∈ kw1, alLookup m1 (hyphenate p.1) = some p.2 :=
          alLookup_mergeKw_of_mem kw1 cc1 hkw1nd
        have hrOK : ∀ f ∈ renders, fieldOK f := renderDirectives_fieldOK m1 hm1OK
        cases hpe : patched.isEmpty with
        | true =>
          rw [hpe] at h1
          simp only [if_pos rfl] at h1
          injection h1 with hinj
          subst hinj
          -- every override carries `False`, so reapplying to the removed
          -- header removes it again
          have hallf : ∀ p ∈ kw, p.2 = .pbool false := by
            intro p hp
            by_contra hpv
            -- produce a non-False override entry of kw1
            have hq : ∃ q ∈ kw1, q.2 ≠ .pbool false := by
              rcases adjustMaxAge_cases cc1 kw kw1 hadj with ⟨-, hkk⟩ |
                ⟨ev, kv, n, v, hev, hkvl, hn, hv, hkk⟩
              · exact ⟨p, by rw [hkk]; exact hp, hpv⟩
              · by_cases hpk : p.1 = "max_age".data
                · have hmem := alLookup_mem kw _ kv hkvl
                  obtain ⟨m, hm⟩ := valIsInt_cases kv ((hkw.2 _ hmem).2.2 rfl)
                  have hm' : kv = .pint m := hm
                  rw [hm', pyMinVal_pint] at hv
                  have hvv : v = .pint (min n m) := (Option.some_inj.mp hv).symm
                  refine ⟨("max_age".data, v), ?_, by rw [hvv]; simp⟩
                  rw [hkk]
                  exact alLookup_mem _ _ _ (alLookup_alSet_self kw _ v)
                · exact ⟨p, by rw [hkk]; exact alSet_mem_of_ne kw _ v p hp hpk, hpv⟩
            obtain ⟨q, hq1, hq2⟩ := hq
            -- its rendered field is a non-empty member of `renders`
            have hql : alLookup m1 (hyphenate q.1) = some q.2 := hkw1look q hq1
            have hqm : (hyphenate q.1, q.2) ∈ m1 := alLookup_mem _ _ _ hql
            have hf : ∃ f, renderDirective (hyphenate q.1) q.2 = some f ∧ f ≠ [] := by
              rcases (hkw1good q hq1).2 with ⟨b, hb⟩ | ⟨n, hn⟩
              · cases b with
                | false => exact absurd hb hq2
                | true =>
                  refine ⟨hyphenate q.1, by rw [hb]; rfl, ?_⟩
                  exact hyphenate_ne_nil q.1 (hkw1good q hq1).1.1
              · exact ⟨hyphenate q.1 ++ '=' :: intChars n, by rw [hn]; rfl, by simp⟩
            obtain ⟨f, hfr, hfne⟩ := hf
            have hfmem : f ∈ renders := by
              rw [hrendersdef]
              unfold renderDirectives
              rw [List.mem_filterMap]
              exact ⟨(hyphenate q.1, q.2), hqm, hfr⟩
            rcases intercalate_comma_empty renders hpe with h | h
            · rw [h] at hfmem
              simp at hfmem
            · rw [h] at hfmem
              exact hfne (List.mem_singleton.mp hfmem)
          -- compute the second application on the removed header
          show patchCCValue none kw = .ok none
          simp only [patchCCValue, patchCCMap]
          rw [show adjustMaxAge (ccOfFields (parseHttpListCore ((none : Option (List Char)).getD
            []))) kw = some kw from rfl]
          dsimp only
          rw [hpub, hpriv]
          simp only [Bool.false_eq_true, if_false]
          have hr2 : renderDirectives (mergeKw (ccOfFields (parseHttpListCore
              ((none : Option (List Char)).getD []))) kw) = [] := by
            apply renderDirectives_nil_of_none
            intro p hp
            rcases mergeKw_mem_subset kw _ p hp with h | ⟨q, hq, hpq⟩
            · exact absurd (h : p ∈ ([] : CCMap)) (List.not_mem_nil p)
            · rw [hpq, show q.2 = .pbool false from hallf q hq]
              rfl
          rw [hr2]
          rfl
        | false =>
          rw [hpe] at h1
          simp only [Bool.false_eq_true, if_false] at h1
          injection h1 with hinj
          subst hinj
          -- the output reparses to the fields it was rendered from
          have hparse : parseHttpListCore patched = renders := by
            rw [hpatcheddef]
            apply parse_join renders (fun f hf => (hrOK f hf).1) (fun f hf => (hrOK f hf).2)
            intro f hfe hfnil
            have hcontra : patched.isEmpty = true := by
              rw [hpatcheddef, hfe, hfnil]
              rfl
            rw [hcontra] at hpe
            exact Bool.noConfusion hpe
          have hcc2 : ccOfFields (parseHttpListCore patched) = nfMap m1 := by
            rw [hparse, hrendersdef]
            exact ccOfFields_eq_pairs _ (nfMap m1) (renderDirectives_map_parse m1 hm1OK)
              (nfMap_nodup m1 hm1nd)
          -- the adjustment recomputes to the same override list
          have hadj2 : adjustMaxAge (nfMap m1) kw = some kw1 := by
            rcases adjustMaxAge_cases cc1 kw kw1 hadj with ⟨hnone, hkk⟩ |
              ⟨ev, kv, n, v, hev, hkvl, hn, hv, hkk⟩
            · rcases hnone with hccnone | hkwnone
              · cases hkvl2 : alLookup kw "max_age".data with
                | none =>
                  rw [hkk]
                  unfold adjustMaxAge
                  cases hc2 : alLookup (nfMap m1) "max-age".data with
                  | none => rfl
                  | some ev2 => rw [hkvl2]
                | some kv2 =>
                  have hmem := alLookup_mem kw _ kv2 hkvl2
                  obtain ⟨m, hm⟩ := valIsInt_cases kv2 ((hkw.2 _ hmem).2.2 rfl)
                  have hm' : kv2 = .pint m := hm
                  have hm1l : alLookup m1 "max-age".data = some kv2 := by
                    have h0 := hkw1look ("max_age".data, kv2) (by rw [hkk]; exact hmem)
                    dsimp only at h0
                    rwa [hyphenate_max_age] at h0
                  have hc2 : alLookup (nfMap m1) "max-age".data =
                      some (.pstr (intChars m)) := by
                    rw [alLookup_nfMap m1 hm1nd, hm1l, hm']
                    dsimp only
                    rw [if_neg (by simp)]
                    rfl
                  rw [hkk]
                  unfold adjustMaxAge
                  rw [hc2, hkvl2, hm']
                  dsimp only
                  rw [show pyIntOfVal (.pstr (intChars m)) = some m from pyInt_intChars m]
                  dsimp only
                  rw [pyMinVal_pint, min_self]
                  rw [show Option.map (fun v => alSet kw "max_age".data v)
                    (some (PyVal.pint m)) = some (alSet kw "max_age".data (.pint m)) from rfl]
                  rw [alSet_self_of_lookup kw _ _ (by rw [hkvl2, hm'])]
              · rw [hkk]
                unfold adjustMaxAge
                cases hc2 : alLookup (nfMap m1) "max-age".data with
                | none => rfl
                | some ev2 => rw [hkwnone]
            · have hmem := alLookup_mem kw _ kv hkvl
              obtain ⟨m, hm⟩ := valIsInt_cases kv ((hkw.2 _ hmem).2.2 rfl)
              have hm' : kv = .pint m := hm
              have hvv : v = .pint (min n m) := by
                rw [hm', pyMinVal_pint] at hv
                exact (Option.some_inj.mp hv).symm
              have hlkw1 : alLookup kw1 "max_age".data = some v := by
                rw [hkk]
                exact alLookup_alSet_self _ _ _
              have hmem1 : ("max_age".data, v) ∈ kw1 := alLookup_mem _ _ _ hlkw1
              have hm1l : alLookup m1 "max-age".data = some v := by
                have h0 := hkw1look _ hmem1
                dsimp only at h0
                rwa [hyphenate_max_age] at h0
              have hc2 : alLookup (nfMap m1) "max-age".data =
                  some (.pstr (intChars (min n m))) := by
                rw [alLookup_nfMap m1 hm1nd, hm1l, hvv]
                dsimp only
                rw [if_neg (by simp)]
                rfl
              unfold adjustMaxAge
              rw [hc2, hkvl, hm']
              dsimp only
              rw [show pyIntOfVal (.pstr (intChars (min n m))) = some (min n m) from
                pyInt_intChars _]
              dsimp only
              rw [pyMinVal_pint,
                show min (min n m) m = min n m from min_eq_left (min_le_right n m)]
              rw [show Option.map (fun v => alSet kw "max_age".data v)
                (some (PyVal.pint (min n m))) =
                some (alSet kw "max_age".data (.pint (min n m))) from rfl]
              rw [hkk, hvv]
          -- merged rendering is unchanged
          have hrel : ∀ k, optRel k (alLookup (nfMap m1) k) (alLookup m1 k) := by
            intro k
            rw [alLookup_nfMap m1 hm1nd k]
            cases hl : alLookup m1 k with
            | none =>
              show optRel k none none
              trivial
            | some v =>
              by_cases hb : v = .pbool false
              · rw [show (match some v with
                  | some v => if v = PyVal.pbool false then none else some (normVal v)
                  | none => none) = none from by rw [hb]; simp]
                show renderDirective k v = none
                rw [hb]
                rfl
              · rw [show (match some v with
                  | some v => if v = PyVal.pbool false then none else some (normVal v)
                  | none => none) = some (normVal v) from by simp [hb]]
                show renderDirective k (normVal v) = renderDirective k v
                exact renderDirective_norm k v
          have hrender2 : renderDirectives (mergeKw (nfMap m1) kw1) = renderDirectives m1 :=
            mergeRender kw1 (nfMap m1) m1 (nfMap_nodup m1 hm1nd)
              (renderDirectives_nfMap m1) hrel hkw1look
          -- compute the second application
          show patchCCValue (some patched) kw = .ok (some patched)
          simp only [patchCCValue, patchCCMap]
          rw [show (Option.getD (some patched) []) = patched from rfl, hcc2, hadj2]
          dsimp only
          rw [hpub, hpriv]
          simp only [Bool.false_eq_true, if_false]
          rw [hrender2, ← hrendersdef, ← hpatcheddef]
          rw [if_neg (by rw [hpe]; simp)]

/-- `noBS` is a checkable property. -/
instance (d : List Char) : Decidable (noBS d) := by
  unfold noBS
  infer_instance

/-- `GoodCC` is a checkable property. -/
instance (s : List Char) : Decidable (GoodCC s) := by
  unfold GoodCC
  infer_instance

/-- `tokenName` is a checkable property. -/
instance (k : List Char) : Decidable (tokenName k) := by
  unfold tokenName
  infer_instance

/-- `KwOK` is a checkable property. -/
instance (kw : Kwargs) : Decidable (KwOK kw) := by
  unfold KwOK
  infer_instance

/-! ### Header-level plumbing for re-application -/

/-- Step equation for `headersSetGo` on a cons cell. -/
theorem headersSetGo_cons (key v : String) (p : String × String)
    (rest : List (String × String)) :
    headersSetGo key v (p :: rest) =
      if p.1 == key then (key, v) :: rest.filter (fun q => q.1 ≠ key)
      else p :: headersSetGo key v rest := rfl

/-- A set header reads back. -/
theorem headersGet_headersSet (hs : List (String × String)) (n v : String) :
    headersGet (headersSet hs n v) n = some v := by
  unfold headersSet headersGet
  induction hs with
  | nil => simp [headersSetGo]
  | cons p rest ih =>
    by_cases hp : p.1 == strLower n
    · rw [headersSetGo_cons, if_pos hp]
      simp
    · rw [headersSetGo_cons, if_neg hp]
      have hpf : (p.1 == strLower n) = false := by
        simpa using hp
      rw [List.find?_cons, hpf]
      exact ih

/-- Setting the same value twice is the same as setting it once. -/
theorem headersSet_headersSet (hs : List (String × String)) (n v : String) :
    headersSet (headersSet hs n v) n v = headersSet hs n v := by
  unfold headersSet
  induction hs with
  | nil =>
    show headersSetGo (strLower n) v [(strLower n, v)] = [(strLower n, v)]
    unfold headersSetGo
    rw [if_pos (by simp)]
    rfl
  | cons p rest ih =>
    by_cases hp : p.1 == strLower n
    · rw [headersSetGo_cons, if_pos hp, headersSetGo_cons, if_pos (by simp)]
      rw [List.filter_filter]
      congr 1
      apply List.filter_congr
      intro q hq
      simp
    · rw [headersSetGo_cons, if_neg hp, headersSetGo_cons, if_neg hp]
      rw [ih]

/-- Deleting twice is the same as deleting once. -/
theorem headersDel_headersDel (hs : List (String × String)) (n : String) :
    headersDel (headersDel hs n) n = headersDel hs n := by
  unfold headersDel
  rw [List.filter_filter]
  apply List.filter_congr
  intro q hq
  simp

/-- `patch_cache_control` is not idempotent in general: a quoted
backslash in the existing header value is unescaped once per
application, so applying the same (empty) overrides twice keeps
changing the header. -/
theorem patch_cache_control_not_idempotent :
    patch_cache_control [("cache-control", "x=\"a\\\\b\"")] [] =
      .ok [("cache-control", "x=\"a\\b\"")] ∧
    patch_cache_control [("cache-control", "x=\"a\\b\"")] [] =
      .ok [("cache-control", "x=\"ab\"")] ∧
    ("x=\"a\\b\"" : String) ≠ "x=\"ab\"" :=
  ⟨rfl, rfl, by decide⟩

/-- **C9** (corrected).  `patch_cache_control` is idempotent for every
header set whose current `Cache-Control` value is backslash-free with
balanced quotes, and every override set with distinct hyphenated token
names, boolean or integer values, and an integer `max_age`: applying
the same overrides to the output reproduces the output exactly.
(The unrestricted claim is false: backslash unescaping inside quoted
directive values makes repeated application keep rewriting the header,
see `patch_cache_control_not_idempotent`.) -/
theorem patch_cache_control_idem_wellformed (hs : List (String × String))
    (kw : Kwargs)
    (hgc : GoodCC (((headersGet hs "Cache-Control").map String.data).getD []))
    (hkw : KwOK kw) (out1 : List (String × String))
    (h1 : patch_cache_control hs kw = .ok out1) :
    patch_cache_control out1 kw = .ok out1 := by
  unfold patch_cache_control at h1 ⊢
  cases hv : patchCCValue ((headersGet hs "Cache-Control").map String.data) kw with
  | error e =>
    rw [hv] at h1
    exact absurd h1 (by simp)
  | ok v1 =>
    rw [hv] at h1
    have hidem := patchCCValue_idem ((headersGet hs "Cache-Control").map String.data)
      kw hgc hkw v1 hv
    cases v1 with
    | none =>
      dsimp only at h1
      injection h1 with hinj
      subst hinj
      rw [headersGet_headersDel]
      rw [show Option.map String.data (none : Option String) = none from rfl]
      rw [hidem]
      dsimp only
      rw [headersDel_headersDel]
    | some v =>
      dsimp only at h1
      injection h1 with hinj
      subst hinj
      rw [headersGet_headersSet]
      rw [show Option.map String.data (some (List.asString v)) = some v from rfl]
      rw [hidem]
      dsimp only
      rw [headersSet_headersSet]

/-- The corrected idempotence theorem at a concrete input: an existing
`max-age=60, must-revalidate` header with a `max_age=30` override is
patched to `max-age=30, must-revalidate`, and patching again returns
it unchanged. -/
theorem patch_cache_control_idem_wellformed_witness :
    patch_cache_control [("cache-control", "max-age=60, must-revalidate")]
      [("max_age".data, .pint 30)] =
      .ok [("cache-control", "max-age=30, must-revalidate")] ∧
    patch_cache_control [("cache-control", "max-age=30, must-revalidate")]
      [("max_age".data, .pint 30)] =
      .ok [("cache-control", "max-age=30, must-revalidate")] :=
  ⟨by rfl, patch_cache_control_idem_wellformed
    [("cache-control", "max-age=60, must-revalidate")] [("max_age".data, .pint 30)]
    (by decide) (by decide)
    [("cache-control", "max-age=30, must-revalidate")] (by rfl)⟩

end AsgiCaches
